import Mathlib

set_option linter.unusedVariables false

/-!
Verification development for the XAIGER backend (`backends/aiger/xaiger.cc`):
a shallow embedding of the writer's data model (canonical signal bits, the
NOT/AND/alias relation tables, the AIG builder state), of the recursive
memoized translation `bit2aig`, of the constructor's numbering and
output-emission phase, and of the binary serializer (`write_aiger`) and the
companion map writer (`write_map`), together with theorems about them.

Machine integers are modelled as `Nat`/`Int`; all the C++ `int` counters in
this code stay small and non-negative (they are literal/variable counts),
so no wraparound modelling is needed.  `log_assert`/`log_error` aborts are
modelled as `Option`/error results.
-/

/-- A single-bit signal identity: either one of the RTLIL constant states
`S0`/`S1`/`Sx`/`Sz`, or bit `offset` of wire number `w` (`RTLIL::SigBit`). -/
inductive SigBit where
  | S0 : SigBit
  | S1 : SigBit
  | Sx : SigBit
  | Sz : SigBit
  | wire : Nat → Nat → SigBit
deriving DecidableEq, Repr

/-- First-match association-list lookup; models `dict<K,V>::count/at/find`. -/
def alookup {κ : Type} {α : Type} [DecidableEq κ] (k : κ) : List (κ × α) → Option α
  | [] => none
  | (k', v) :: rest => if k = k' then some v else alookup k rest

/-- Lookup with a default value; models `dict<K,V>::at(key, default)`. -/
def alookupD {κ : Type} {α : Type} [DecidableEq κ] (k : κ) (m : List (κ × α)) (d : α) : α :=
  (alookup k m).getD d

/-- Insert-or-overwrite; models `dict<K,V>::operator[] = v` (a missing key is
appended at the end, an existing key is updated in place). -/
def dictInsert {κ : Type} {α : Type} [DecidableEq κ] (k : κ) (v : α) :
    List (κ × α) → List (κ × α)
  | [] => [(k, v)]
  | (k', v') :: rest => if k = k' then (k, v) :: rest else (k', v') :: dictInsert k v rest

/-- The classifier's relation tables consumed by `bit2aig`:
`not_map` (Y ↦ A of a `$_NOT_`), `and_map` (Y ↦ (A,B) of a `$_AND_`) and
`alias_map` (bit ↦ electrically equal bit). -/
structure Netlist where
  not_map : List (SigBit × SigBit)
  and_map : List (SigBit × (SigBit × SigBit))
  alias_map : List (SigBit × SigBit)
deriving DecidableEq, Repr

/-- The mutable state of `XAigerWriter` that the numbering / AIG-construction
phase reads and writes: the counters `aig_m/i/l/o/a`, the gate table
`aig_gates`, the emitted output literals `aig_outputs`, the memo table
`aig_map`, the output bookkeeping `ordered_outputs`, the constructor-local
`ff_aig_map`, and the `output_bits` pool together with the `omode` flag. -/
structure XState where
  aig_m : Nat
  aig_i : Nat
  aig_l : Nat
  aig_o : Nat
  aig_a : Nat
  aig_gates : List (Nat × Nat)
  aig_outputs : List Nat
  aig_map : List (SigBit × Nat)
  ordered_outputs : List (SigBit × Nat)
  ff_aig_map : List (SigBit × Nat)
  output_bits : List SigBit
  omode : Bool
deriving DecidableEq, Repr

/-- `XAigerWriter::mkgate`: `aig_m++, aig_a++;` push the operand pair with the
larger literal first; the fresh gate literal `2*aig_m` is returned. -/
def XState.mkgate (s : XState) (a0 a1 : Nat) : XState × Nat :=
  ({ s with aig_m := s.aig_m + 1, aig_a := s.aig_a + 1,
            aig_gates := s.aig_gates ++ [if a0 > a1 then (a0, a1) else (a1, a0)] },
   2 * (s.aig_m + 1))

/-- Result of one `bit2aig` call: success with the updated writer state and the
computed literal, a hard error (a failed `log_assert` or an out-of-range
`dict::at`), or exhaustion of the recursion fuel (the C++ function would
still be recursing). -/
inductive Res where
  | ok : XState → Nat → Res
  | err : Res
  | fuelOut : Res
deriving DecidableEq, Repr

/-- The tail of `XAigerWriter::bit2aig` after the not/and/alias chain computed
a candidate literal (`none` models the C++ sentinel `a = -1`): the
`bit == Sx || bit == Sz` override reads `aig_map.at(State::S0)`, then
`log_assert(a >= 0)` fires on a still-unresolved bit, and on success the
result is memoized with `aig_map[bit] = a`. -/
def bit2aigFinish (bit : SigBit) (st : XState) (a0 : Option Nat) : Res :=
  match (if bit = SigBit.Sx ∨ bit = SigBit.Sz then alookup SigBit.S0 st.aig_map else a0) with
  | none => Res.err
  | some a => Res.ok { st with aig_map := dictInsert bit a st.aig_map } a

/-- `XAigerWriter::bit2aig`, with explicit recursion fuel (the C++ recursion
is unbounded; on the acyclic tables produced by the pass it terminates, which
is proved below).  A memoized bit returns its cached literal (the cached
value is a `Nat`, so `log_assert(it->second >= 0)` always holds); otherwise
the first matching relation among `not_map`, `and_map`, `alias_map` is
translated recursively, `and` allocating a gate through `mkgate`. -/
def bit2aig (nl : Netlist) : Nat → XState → SigBit → Res
  | 0, _, _ => Res.fuelOut
  | fuel + 1, st, bit =>
    match alookup bit st.aig_map with
    | some v => Res.ok st v
    | none =>
      match alookup bit nl.not_map with
      | some nb =>
        match bit2aig nl fuel st nb with
        | Res.ok st1 a => bit2aigFinish bit st1 (some (a ^^^ 1))
        | Res.err => Res.err
        | Res.fuelOut => Res.fuelOut
      | none =>
        match alookup bit nl.and_map with
        | some args =>
          match bit2aig nl fuel st args.1 with
          | Res.ok st1 b0 =>
            match bit2aig nl fuel st1 args.2 with
            | Res.ok st2 b1 =>
              bit2aigFinish bit (st2.mkgate b0 b1).1 (some (st2.mkgate b0 b1).2)
            | Res.err => Res.err
            | Res.fuelOut => Res.fuelOut
          | Res.err => Res.err
          | Res.fuelOut => Res.fuelOut
        | none =>
          match alookup bit nl.alias_map with
          | some ab =>
            match bit2aig nl fuel st ab with
            | Res.ok st1 a => bit2aigFinish bit st1 (some a)
            | Res.err => Res.err
            | Res.fuelOut => Res.fuelOut
          | none => bit2aigFinish bit st none

/-- The classified tables the numbering phase consumes: `input_bits` (already
sorted), the registers `ff_bits` (D-bit, mergeability class), the box output
bits `ci_bits` and box input bits `co_bits` (only the `SigBit` component of
the C++ tuples is kept: the owning cell, port name and offsets are never read
by the numbering/output phase), and the sorted `output_bits` pool. -/
structure Tables where
  input_bits : List SigBit
  ff_bits : List (SigBit × Nat)
  ci_bits : List SigBit
  co_bits : List SigBit
  output_bits : List SigBit
deriving DecidableEq, Repr

/-- One step of the primary-input / register-input numbering loops:
`aig_m++, aig_i++; log_assert(!aig_map.count(bit)); aig_map[bit] = 2*aig_m;`
(the failed assert is `none`). -/
def addInput (s : XState) (bit : SigBit) : Option XState :=
  if (alookup bit s.aig_map).isSome then none
  else some { s with aig_m := s.aig_m + 1, aig_i := s.aig_i + 1,
                     aig_map := s.aig_map ++ [(bit, 2 * (s.aig_m + 1))] }

def addInputs : XState → List SigBit → Option XState
  | s, [] => some s
  | s, b :: rest =>
    match addInput s b with
    | some s' => addInputs s' rest
    | none => none

/-- One step of the box-output (`ci_bits`) numbering loop:
`aig_m++, aig_i++;` then `aig_map.insert({bit, 2*aig_m})`, which only inserts
when the bit is not yet mapped; when insertion fails (the bit already has a
literal, which happens exactly for register D-bits numbered earlier) the
fresh literal is recorded in `ff_aig_map[bit]` instead. -/
def addCi (s : XState) (bit : SigBit) : XState :=
  match alookup bit s.aig_map with
  | some _ =>
    { s with aig_m := s.aig_m + 1, aig_i := s.aig_i + 1,
             ff_aig_map := dictInsert bit (2 * (s.aig_m + 1)) s.ff_aig_map }
  | none =>
    { s with aig_m := s.aig_m + 1, aig_i := s.aig_i + 1,
             aig_map := s.aig_map ++ [(bit, 2 * (s.aig_m + 1))] }

def addCis : XState → List SigBit → XState
  | s, [] => s
  | s, b :: rest => addCis (addCi s b) rest

/-- One output emission (used for both the `co_bits` loop and the
`output_bits` loop): `ordered_outputs[bit] = aig_o++;` then
`aig_outputs.push_back(bit2aig(bit))`.  (For `co_bits` the C++ also stores
the index into the tuple's last component, which is not modelled since it is
never read afterwards by the writer.) -/
def emitBit (nl : Netlist) (fuel : Nat) (s : XState) (bit : SigBit) : Option XState :=
  let s1 := { s with ordered_outputs := dictInsert bit s.aig_o s.ordered_outputs,
                     aig_o := s.aig_o + 1 }
  match bit2aig nl fuel s1 bit with
  | Res.ok s2 a => some { s2 with aig_outputs := s2.aig_outputs ++ [a] }
  | _ => none

def emitBits (nl : Netlist) (fuel : Nat) : XState → List SigBit → Option XState
  | s, [] => some s
  | s, b :: rest =>
    match emitBit nl fuel s b with
    | some s' => emitBits nl fuel s' rest
    | none => none

/-- The register output group: `aig_o++;
aig_outputs.push_back(ff_aig_map.at(bit));` (`at` on a missing key throws,
modelled as `none`). -/
def emitFf (s : XState) (bit : SigBit) : Option XState :=
  match alookup bit s.ff_aig_map with
  | some v => some { s with aig_o := s.aig_o + 1, aig_outputs := s.aig_outputs ++ [v] }
  | none => none

def emitFfs : XState → List (SigBit × Nat) → Option XState
  | s, [] => some s
  | s, p :: rest =>
    match emitFf s p.1 with
    | some s' => emitFfs s' rest
    | none => none

/-- Writer state right before numbering: all counters zero and
`aig_map[State::S0] = 0; aig_map[State::S1] = 1;`. -/
def initX (output_bits0 : List SigBit) : XState :=
  { aig_m := 0, aig_i := 0, aig_l := 0, aig_o := 0, aig_a := 0,
    aig_gates := [], aig_outputs := [],
    aig_map := [(SigBit.S0, 0), (SigBit.S1, 1)],
    ordered_outputs := [], ff_aig_map := [],
    output_bits := output_bits0, omode := false }

/-- `if (output_bits.empty()) { output_bits.insert(State::S0); omode = true; }`
(line 609): the dummy constant-0 output bit is inserted into the empty pool. -/
def fixupOutputs (s : XState) : XState :=
  if s.output_bits.isEmpty then { s with output_bits := [SigBit.S0], omode := true } else s

/-- The trailing `if (output_bits.empty())` re-check (line 625): push a raw 0
output.  Embedded as written; it can never fire because `fixupOutputs` has
already made the pool nonempty. -/
def finalOmode (s : XState) : XState :=
  if s.output_bits.isEmpty
  then { s with aig_o := s.aig_o + 1, aig_outputs := s.aig_outputs ++ [0], omode := true }
  else s

/-- The numbering and output-emission phase of the `XAigerWriter` constructor
(lines 578-629 of `xaiger.cc`): number the primary inputs, then the register
D-bits, then the box outputs; emit one output per `co_bits` entry, insert the
dummy `State::S0` output when `output_bits` is empty (setting `omode`), emit
one output per `output_bits` entry, and finally one output per register from
`ff_aig_map`. -/
def buildAig (nl : Netlist) (tb : Tables) (fuel : Nat) : Option XState :=
  match addInputs (initX tb.output_bits) tb.input_bits with
  | none => none
  | some s1 =>
    match addInputs s1 (tb.ff_bits.map Prod.fst) with
    | none => none
    | some s2 =>
      match emitBits nl fuel (addCis s2 tb.ci_bits) tb.co_bits with
      | none => none
      | some s4 =>
        match emitBits nl fuel (fixupOutputs s4) (fixupOutputs s4).output_bits with
        | none => none
        | some s6 =>
          match emitFfs s6 tb.ff_bits with
          | none => none
          | some s7 => some (finalOmode s7)

/-- `aiger_encode`: the binary AIGER 7-bit variable-length encoding.  The C++
loop runs `while (x & ~0x7f)`, i.e. while `x ≥ 128` for the asserted
non-negative `x`, emitting the byte `(x & 0x7f) | 0x80 = x % 128 + 128`
(bit 7 is disjoint from the low 7 bits) and shifting `x >>= 7`, and finally
emits the remaining byte `x < 128`. -/
def aiger_encode (x : Nat) : List Nat :=
  if h : x < 128 then [x]
  else (x % 128 + 128) :: aiger_encode (x / 128)
termination_by x
decreasing_by exact Nat.div_lt_self (by omega) (by omega)

/-- Modelled from the spec: the decoder for the 7-bit little-group
variable-length encoding is not part of this source file (it lives in the
AIGER reader), so it is reconstructed from the spec's words: the top bit of
each byte is the continuation bit, the low 7 bits are the value groups,
least-significant group first. -/
def aiger_decode : List Nat → Option (Nat × List Nat)
  | [] => none
  | b :: rest =>
    if b < 128 then some (b, rest)
    else
      match aiger_decode rest with
      | some (x, r) => some ((b - 128) + 128 * x, r)
      | none => none

/-- Concatenated encoding of a sequence of non-negative integers. -/
def encodeSeq (xs : List Nat) : List Nat := (xs.map aiger_encode).flatten

/-- Decode `n` consecutive variable-length integers, returning them together
with the remaining bytes. -/
def decodeN : Nat → List Nat → Option (List Nat × List Nat)
  | 0, bs => some ([], bs)
  | k + 1, bs =>
    match aiger_decode bs with
    | some (x, r) =>
      match decodeN k r with
      | some (xs, r') => some (x :: xs, r')
      | none => none
    | none => none

/-- The per-gate deltas computed by the binary branch of `write_aiger`
(lines 678-686): for gate `i`, `lhs = 2*(aig_i+aig_l+i)+2`,
`delta0 = lhs - rhs0`, `delta1 = rhs0 - rhs1`, as C++ signed ints
(`aig_gates.at(i)` is modelled with a default since `aig_a` equals the table
length in every reachable state, which is proved below). -/
def gateDeltas (s : XState) : List (Int × Int) :=
  (List.range s.aig_a).map fun i =>
    let g := s.aig_gates.getD i (0, 0)
    (((2 * (s.aig_i + s.aig_l + i) + 2 : Nat) : Int) - (g.1 : Int),
     ((g.1 : Int) - (g.2 : Int)))

/-- The builder-state invariant maintained by numbering and `bit2aig`:
`aig_a` is the gate-table length, `aig_m = aig_i + aig_l + aig_a`
(`log_assert`ed by `write_aiger`), every memoized literal references an
already-allocated variable (`≤ 2*aig_m + 1`), and every stored gate has its
larger operand first with both operands allocated before the gate itself. -/
def XState.wf (s : XState) : Prop :=
  s.aig_a = s.aig_gates.length ∧
  s.aig_m = s.aig_i + s.aig_l + s.aig_a ∧
  (∀ p ∈ s.aig_map, p.2 ≤ 2 * s.aig_m + 1) ∧
  (∀ i (h : i < s.aig_gates.length),
     (s.aig_gates[i]).2 ≤ (s.aig_gates[i]).1 ∧
     (s.aig_gates[i]).1 ≤ 2 * (s.aig_i + s.aig_l + i) + 1)

/-- Both binary gate deltas are non-negative. -/
def deltasOk (s : XState) : Prop :=
  ∀ d ∈ gateDeltas s, 0 ≤ d.1 ∧ 0 ≤ d.2

instance (s : XState) : Decidable s.wf := by
  unfold XState.wf
  exact inferInstance

instance (s : XState) : Decidable (deltasOk s) := by
  unfold deltasOk
  exact inferInstance

/-- The fields of the writer state not touched by `bit2aig`/`mkgate`. -/
def XState.auxEq (s s' : XState) : Prop :=
  s'.aig_i = s.aig_i ∧ s'.aig_l = s.aig_l ∧ s'.aig_o = s.aig_o ∧
  s'.aig_outputs = s.aig_outputs ∧ s'.ordered_outputs = s.ordered_outputs ∧
  s'.ff_aig_map = s.ff_aig_map ∧ s'.output_bits = s.output_bits ∧ s'.omode = s.omode

/-- The four bytes of a 32-bit value in big-endian order (most significant
byte first): the byte sequence the XAIGER format intends for its integers. -/
def be32 (n : Nat) : List Nat :=
  [n / 2 ^ 24 % 256, n / 2 ^ 16 % 256, n / 2 ^ 8 % 256, n % 256]

/-- The four bytes of a 32-bit value in little-endian order: the raw memory
image of a `uint32_t`/`float` on the little-endian hosts selected by the
`__ORDER_LITTLE_ENDIAN__` branch of `to_big_endian`. -/
def leBytes (n : Nat) : List Nat :=
  [n % 256, n / 2 ^ 8 % 256, n / 2 ^ 16 % 256, n / 2 ^ 24 % 256]

/-- `bswap32` (`__builtin_bswap32`): reverse the four bytes of a 32-bit
value. -/
def bswap32 (x : Nat) : Nat :=
  (x % 256) * 2 ^ 24 + (x / 2 ^ 8 % 256) * 2 ^ 16 + (x / 2 ^ 16 % 256) * 2 ^ 8 + x / 2 ^ 24 % 256

/-- `to_big_endian` on a little-endian host: byte-swap the 32-bit value. -/
def to_big_endian (x : Nat) : Nat := bswap32 x

/-- The `write_buffer` lambda of `write_aiger`: byte-swap the int through
`to_big_endian` and write its 4 raw (host-order, little-endian) bytes; the
values written are counts, truncated to 32 bits. -/
def write_buffer (x : Nat) : List Nat := leBytes (to_big_endian (x % 2 ^ 32))

/-- The `write_buffer_float` lambda of `write_aiger`: the 4 raw bytes of the
IEEE-754 single bit pattern `pat`, written directly (no byte swap is
applied), hence in host (little-endian) byte order. -/
def write_buffer_float (pat : Nat) : List Nat := leBytes (pat % 2 ^ 32)

/-- Read back a big-endian 32-bit value (used to specify the section length
framing). -/
def rd32 : List Nat → Nat
  | [b3, b2, b1, b0] => ((b3 * 256 + b2) * 256 + b1) * 256 + b0
  | _ => 0

/-- One extension section as emitted by `write_aiger`: the single ASCII tag
byte, the payload length as a big-endian `u32` (`to_big_endian(buffer.size())`
written raw), then the payload bytes. -/
def tagSection (tag : Nat) (payload : List Nat) : List Nat :=
  tag :: (write_buffer payload.length ++ payload)

/-- The per-box header record of the `h` buffer: `box_inputs`, `box_outputs`,
`abc9_box_id`, `box_count` (the running index).  `box_inputs`/`box_outputs`
are computed by the holes machinery from the derived box module's ports
(including the extra `$currQ` input of an `abc9_flop` box); that computation
runs external passes, so the per-box numbers are abstracted as data here. -/
structure Box where
  boxInputs : Nat
  boxOutputs : Nat
  boxId : Nat
deriving DecidableEq, Repr

/-- The box records appended to the `h` buffer inside the box loop, with the
running `box_count++`. -/
def hBoxes : List Box → Nat → List Nat
  | [], _ => []
  | b :: rest, k =>
      write_buffer b.boxInputs ++ write_buffer b.boxOutputs ++
      write_buffer b.boxId ++ write_buffer k ++ hBoxes rest (k + 1)

/-- The writer's data as seen by `write_aiger`/`write_map` after the
constructor ran: the final `XState`, the classified bit tables, the box list,
the arrival-time table (`float` values kept as their IEEE-754 bit patterns),
the per-register initial-value flag (`\init` attribute bit equal to `S1`,
re-read by the `s` section), the wire `\init` map used by `write_map`, the
nested holes encoding (produced by a recursive `XAigerWriter` over the
`$__holes__` module, abstracted as bytes), and the trailer bytes
(`"Generated by <version>\n"`). -/
structure XWriter where
  zinit_mode : Bool
  st : XState
  input_bits : List SigBit
  ff_bits : List (SigBit × Nat)
  ci_bits : List SigBit
  co_bits : List SigBit
  box_list : List Box
  arrival_times : List (SigBit × Nat)
  ff_init1 : List (SigBit × Bool)
  init_map : List (SigBit × Bool)
  a_payload : List Nat
  trailer : List Nat
deriving DecidableEq, Repr

/-- The `h` buffer: format version 1, `ciNum`, `coNum`, `piNum`, `poNum`,
`boxNum`, then one record per box (appended during the box loop). -/
def hPayload (w : XWriter) : List Nat :=
  write_buffer 1 ++
  write_buffer (w.input_bits.length + w.ff_bits.length + w.ci_bits.length) ++
  write_buffer (w.st.output_bits.length + w.ff_bits.length + w.co_bits.length) ++
  write_buffer (w.input_bits.length + w.ff_bits.length) ++
  write_buffer (w.st.output_bits.length + w.ff_bits.length) ++
  write_buffer w.box_list.length ++
  hBoxes w.box_list 0

/-- The register loop of `write_aiger` (lines 819-825): for each entry of
`ff_bits` it writes the mergeability class into the `r` buffer with
`write_r_buffer(i.second)` and the register's arrival time into the `i`
buffer with `write_i_buffer(arrival_times.at(bit, 0))`; the two buffers are
threaded together exactly as in the source. -/
def ffRegLoop (arr : List (SigBit × Nat)) : List (SigBit × Nat) → List Nat × List Nat
  | [] => ([], [])
  | (bit, mc) :: rest =>
    let p := ffRegLoop arr rest
    (write_buffer mc ++ p.1, write_buffer_float (alookupD bit arr 0) ++ p.2)

/-- The `r` buffer: the register count, then the mergeability words written by
the register loop.  Note that no arrival times land here: the loop sends them
to the `i` buffer. -/
def rPayload (w : XWriter) : List Nat :=
  write_buffer w.ff_bits.length ++ (ffRegLoop w.arrival_times w.ff_bits).1

/-- The `s` buffer: the register count, then one `write_s_buffer` word per
register, 1 when the register's `\init` bit is `S1` and 0 otherwise
(`write_s_buffer` is the 32-bit integer writer). -/
def sPayload (w : XWriter) : List Nat :=
  write_buffer w.ff_bits.length ++
  (w.ff_bits.map fun p => write_buffer (if alookupD p.1 w.ff_init1 false then 1 else 0)).flatten

/-- The `i` buffer: one `write_buffer_float` arrival per primary input
(lines 715-716), plus, only when the `r`/`s`/`a` branch runs, the register
arrivals appended by the register loop. -/
def iPayload (w : XWriter) : List Nat :=
  (w.input_bits.map fun b => write_buffer_float (alookupD b w.arrival_times 0)).flatten ++
  (if w.box_list = [] ∧ w.ff_bits = [] then [] else (ffRegLoop w.arrival_times w.ff_bits).2)

/-- Everything `write_aiger` emits after the `c` tag byte: when
`!box_list.empty() || !ff_bits.empty()` the sections `r`, `s` and `a` (the
`a` payload being the nested holes encoding; `holes_module` is always
non-null there, `log_assert`ed after `addModule`), then unconditionally the
sections `h` and `i`.  The `log_assert(i.second > 0)` on each register's
mergeability class is a fatal abort, modelled as `none`.  ASCII tags:
`r` = 114, `s` = 115, `a` = 97, `h` = 104, `i` = 105. -/
def extSections (w : XWriter) : Option (List Nat) :=
  if w.box_list = [] ∧ w.ff_bits = [] then
    some (tagSection 104 (hPayload w) ++ tagSection 105 (iPayload w))
  else
    if w.ff_bits.all fun p => decide (0 < p.2) then
      some (tagSection 114 (rPayload w) ++ tagSection 115 (sPayload w) ++
            tagSection 97 w.a_payload ++
            tagSection 104 (hPayload w) ++ tagSection 105 (iPayload w))
    else none

/-- Decimal ASCII digits of `n` (codes 48-57), as produced by `%d`. -/
def natDec (n : Nat) : List Nat :=
  if h : n < 10 then [48 + n]
  else natDec (n / 10) ++ [48 + n % 10]
termination_by n
decreasing_by exact Nat.div_lt_self (by omega) (by omega)

/-- A decimal number followed by a newline, as written by `"%d\n"`. -/
def decLine (n : Nat) : List Nat := natDec n ++ [10]

/-- The header line `"aag"|"aig" M I L O A "\n"` (space = 32). -/
def headerLine (s : XState) (ascii_mode : Bool) : List Nat :=
  (if ascii_mode then [97, 97, 103] else [97, 105, 103]) ++
  [32] ++ natDec s.aig_m ++ [32] ++ natDec s.aig_i ++ [32] ++ natDec s.aig_l ++
  [32] ++ natDec s.aig_o ++ [32] ++ natDec s.aig_a ++ [10]

/-- Encode one signed delta: `aiger_encode` has `log_assert(x >= 0)`, so a
negative delta is a fatal abort. -/
def encodeDelta (d : Int) : Option (List Nat) :=
  if d < 0 then none else some (aiger_encode d.toNat)

/-- The binary gate section: the two deltas of each gate, each
variable-length encoded. -/
def encodeGates : List (Int × Int) → Option (List Nat)
  | [] => some []
  | (d0, d1) :: rest =>
    match encodeDelta d0, encodeDelta d1, encodeGates rest with
    | some b0, some b1, some bs => some (b0 ++ b1 ++ bs)
    | _, _, _ => none

/-- The output lines of the body: `aig_outputs.at(i)` for `i < aig_o` as
decimal text (in `write_aiger` the three loop bounds `aig_obc`, `aig_obcj`,
`aig_obcjf` are all initialized to `aig_o`, so the middle loops are empty and
one line is printed per output; `at` is modelled with a default, guarded by
the `log_assert(aig_obcjf == GetSize(aig_outputs))` check in the caller). -/
def outputLines (s : XState) : List Nat :=
  ((List.range s.aig_o).map fun i => decLine (s.aig_outputs.getD i 0)).flatten

/-- The body of the encoding: in ASCII mode one line `2*i+2` per input, the
output lines, then one `"lhs rhs0 rhs1"` line per gate; in binary mode the
output lines then the delta-encoded gates. -/
def bodyBytes (s : XState) (ascii_mode : Bool) : Option (List Nat) :=
  if ascii_mode then
    some ((((List.range s.aig_i).map fun i => decLine (2 * i + 2)).flatten) ++
          outputLines s ++
          (((List.range s.aig_a).map fun i =>
            let g := s.aig_gates.getD i (0, 0)
            natDec (2 * (s.aig_i + s.aig_l + i) + 2) ++ [32] ++
            natDec g.1 ++ [32] ++ natDec g.2 ++ [10]).flatten))
  else
    match encodeGates (gateDeltas s) with
    | some gs => some (outputLines s ++ gs)
    | none => none

/-- `XAigerWriter::write_aiger`: the asserted invariants
(`aig_m == aig_i + aig_l + aig_a`, `aig_obcjf == GetSize(aig_outputs)`,
`!output_bits.empty()`) abort on failure; otherwise the stream is the header
line, the body, the `c` tag (99), the extension sections and the trailer.
`zinit_mode` is a field of the writer but is never read by this method. -/
def write_xaiger (w : XWriter) (ascii_mode : Bool) : Option (List Nat) :=
  if w.st.aig_m = w.st.aig_i + w.st.aig_l + w.st.aig_a ∧
     w.st.aig_o = w.st.aig_outputs.length ∧ w.st.output_bits ≠ [] then
    match bodyBytes w.st ascii_mode, extSections w with
    | some body, some secs =>
      some (headerLine w.st ascii_mode ++ body ++ [99] ++ secs ++ w.trailer)
    | _, _ => none
  else none

/-- Walk the extension region reading at most `k` sections: each step reads
the tag byte, the 4-byte big-endian length, and skips that many payload
bytes. -/
def tagWalk : Nat → List Nat → List Nat
  | 0, _ => []
  | _ + 1, [] => []
  | k + 1, t :: rest => t :: tagWalk k (rest.drop (4 + rd32 (rest.take 4)))

/-- `write_map`'s `init` computation for an output line: `zinit_mode ? 0 : 2`,
overridden by the recorded `init_map` value (1 for `S1`, 0 for `S0`). -/
def outInit (zinit : Bool) (init_map : List (SigBit × Bool)) (b : SigBit) : Nat :=
  match alookup b init_map with
  | some tv => if tv then 1 else 0
  | none => if zinit then 0 else 2

/-- One `output` line of the map file: `"output %d %d %s %d"` with the output
index (`ordered_outputs.at(b) - GetSize(co_bits)`), the bit offset, the wire
(kept as its numeric identity) and the init field — or the placeholder line
`"output 0 0 $__dummy__"`. -/
inductive MapLine where
  | outLine : Nat → Nat → Nat → Nat → MapLine
  | outDummy : MapLine
deriving DecidableEq, Repr

/-- `output_lines[o] += line`: append under the key `o`, inserting a missing
key at the end (yosys `dict` iteration is insertion-ordered). -/
def dictAppend (k : Nat) (v : MapLine) : List (Nat × List MapLine) → List (Nat × List MapLine)
  | [] => [(k, [v])]
  | (k', vs) :: rest =>
    if k = k' then (k', vs ++ [v]) :: rest else (k', vs) :: dictAppend k v rest

/-- `output_lines[k] = v`: overwrite-or-append-at-end. -/
def dictSet (k : Nat) (v : List MapLine) : List (Nat × List MapLine) → List (Nat × List MapLine)
  | [] => [(k, v)]
  | (k', v') :: rest => if k = k' then (k, v) :: rest else (k', v') :: dictSet k v rest

/-- Key-ordered insertion, used to model `output_lines.sort()`. -/
def insertByKey (p : Nat × List MapLine) :
    List (Nat × List MapLine) → List (Nat × List MapLine)
  | [] => [p]
  | q :: rest => if p.1 ≤ q.1 then p :: q :: rest else q :: insertByKey p rest

def sortByKey : List (Nat × List MapLine) → List (Nat × List MapLine)
  | [] => []
  | p :: rest => insertByKey p (sortByKey rest)

/-- The output-line collection loop of `write_map` (lines 962-996 restricted
to the `output_bits` branch; the input/latch/wire lines are separate
artifacts not needed by the claims below): for every wire (identified by a
numeric id and a width) and every bit offset, a bit found in `output_bits`
contributes `"output %d %d %s %d"` under the key `ordered_outputs.at(b)`
(modelled with default 0; the key is always present for a collected bit in a
constructed writer). -/
def collectOutLines (st : XState) (zinit : Bool) (init_map : List (SigBit × Bool))
    (coLen : Nat) : List (Nat × Nat) → List (Nat × List MapLine) → List (Nat × List MapLine)
  | [], acc => acc
  | (id, width) :: rest, acc =>
    collectOutLines st zinit init_map coLen rest
      ((List.range width).foldl
        (fun acc2 i =>
          let b := SigBit.wire id i
          if b ∈ st.output_bits then
            dictAppend (alookupD b st.ordered_outputs 0)
              (MapLine.outLine (alookupD b st.ordered_outputs 0 - coLen) i id
                (outInit zinit init_map b)) acc2
          else acc2)
        acc)

/-- The `output` lines of `write_map` (lines 1011-1018): collect, sort by
index, then `if (omode) output_lines[State::S0] = "output 0 0 $__dummy__"`
(`State::S0` converts to the integer key 0), print all lines, and finally the
dead re-check `if (omode && output_bits.empty())` printing a second
placeholder (embedded as written; unreachable since `omode` implies `S0` was
inserted into `output_bits`). -/
def writeMapOutputs (st : XState) (zinit : Bool) (init_map : List (SigBit × Bool))
    (coLen : Nat) (wires : List (Nat × Nat)) : List MapLine :=
  let collected := collectOutLines st zinit init_map coLen wires []
  let sorted := sortByKey collected
  let withDummy := if st.omode then dictSet 0 [MapLine.outDummy] sorted else sorted
  (withDummy.map Prod.snd).flatten ++
  (if st.omode ∧ st.output_bits = [] then [MapLine.outDummy] else [])

/-- Modelled from the spec: `TopoSort::sort()` lives in `kernel/utils.h`,
which is not part of this source tree; the spec says a full topological sort
is run over the cell graph.  Kahn's algorithm: repeatedly pick the first
remaining node with no incoming edge from a remaining node. -/
def topoStep (edges : List (Nat × Nat)) (remaining : List Nat) : Option Nat :=
  remaining.find? fun n => remaining.all fun m => decide ((m, n) ∉ edges)

def topoGo (edges : List (Nat × Nat)) : Nat → List Nat → List Nat
  | 0, _ => []
  | fuel + 1, remaining =>
    match topoStep edges remaining with
    | none => []
    | some n => n :: topoGo edges fuel (remaining.erase n)

/-- Modelled from the spec: the sort returns the computed order and whether
it is complete (`toposort.sort()`'s return value `no_loops`). -/
def toposort (nodes : List Nat) (edges : List (Nat × Nat)) : List Nat × Bool :=
  let sorted := topoGo edges nodes.length nodes
  (sorted, decide (sorted.length = nodes.length))

/-- The ordering step of the `XAigerWriter` constructor (lines 348-409): the
registered graph is sorted and `log_assert(no_loops)` aborts on a cycle
(modelled as `none`) — but only when at least one abc9 box cell was seen
(`abc9_box_seen`); otherwise `toposort.sort()` is never invoked and the pass
continues with no box order.  The `#if 0` loop-reporting block of the source
is compiled out and has no observable effect. -/
def orderCells (abc9_box_seen : Bool) (nodes : List Nat) (edges : List (Nat × Nat)) :
    Option (List Nat) :=
  if abc9_box_seen then
    let r := toposort nodes edges
    if r.2 then some r.1 else none
  else some []

/-- A combinational cycle in the registered graph: a nonempty node list each
of whose members feeds the next one around the loop. -/
def isCycle (edges : List (Nat × Nat)) (c : List Nat) : Prop :=
  c ≠ [] ∧ ∀ i (h : i < c.length), (c.getD i 0, c.getD ((i + 1) % c.length) 0) ∈ edges

instance (edges : List (Nat × Nat)) (c : List Nat) : Decidable (isCycle edges c) := by
  unfold isCycle
  exact inferInstance

/-- One bit of one wire as seen by the canonicalization loops: the
public-name flag (`wire->name[0] == '\\'`), the `port_input`/`port_output`
flags, and the electrical node (connected-component) the bit belongs to. -/
structure WireBit where
  isPublic : Bool
  isInput : Bool
  isOutput : Bool
  node : Nat
deriving DecidableEq, Repr

/-- Modelled from the spec: `SigMap::add`/`mfp::promote` live in
`kernel/sigtools.h`/`kernel/utils.h`, which are not part of this source
tree.  Per the spec, promoting a wire chooses its bits as representatives of
their electrical nodes, and later additions do not override earlier
representative choices for the same node; one pass promotes every bit
satisfying the class predicate whose node has no representative yet. -/
def promoteClass (cls : WireBit → Bool) : List (Nat × WireBit) → List WireBit → List (Nat × WireBit)
  | reps, [] => reps
  | reps, b :: rest =>
    promoteClass cls
      (if cls b = true ∧ (alookup b.node reps).isNone then reps ++ [(b.node, b)] else reps)
      rest

/-- The canonical-representative table after the three promotion loops of the
constructor (lines 150-163): first every public-named wire, then every
`port_input` wire, then every `port_output` wire. -/
def canonReps (bits : List WireBit) : List (Nat × WireBit) :=
  promoteClass (fun b => b.isOutput)
    (promoteClass (fun b => b.isInput)
      (promoteClass (fun b => b.isPublic) [] bits) bits) bits

/-- The earliest promotion pass a bit participates in: 0 = public-named,
1 = declared input, 2 = declared output, 3 = none. -/
def firstClass (b : WireBit) : Nat :=
  if b.isPublic then 0 else if b.isInput then 1 else if b.isOutput then 2 else 3

/-! Concrete instances used by witnesses and counterexamples below. -/

/-- The empty relation table. -/
def nlE : Netlist := { not_map := [], and_map := [], alias_map := [] }

/-- A small classified netlist: one primary input, one register whose D-bit
reappears as a box output, a second box output, one box input driven by an
AND gate, one primary output aliased to the input. -/
def tbW : Tables :=
  { input_bits := [SigBit.wire 1 0], ff_bits := [(SigBit.wire 2 0, 1)],
    ci_bits := [SigBit.wire 2 0, SigBit.wire 3 0], co_bits := [SigBit.wire 4 0],
    output_bits := [SigBit.wire 5 0] }

def nlW : Netlist :=
  { not_map := [], and_map := [(SigBit.wire 4 0, (SigBit.wire 1 0, SigBit.wire 3 0))],
    alias_map := [(SigBit.wire 5 0, SigBit.wire 1 0)] }

def sW : XState := (buildAig nlW tbW 9).getD (initX [])

/-- A netlist with one register (D-bit `wire 0 0`, also a box output), no
primary inputs and no primary outputs. -/
def tbC3 : Tables :=
  { input_bits := [], ff_bits := [(SigBit.wire 0 0, 1)], ci_bits := [SigBit.wire 0 0],
    co_bits := [], output_bits := [] }

def sC3 : XState := (buildAig nlE tbC3 9).getD (initX [])

/-- Writer data with one register and no boxes. -/
def wC5 : XWriter :=
  { zinit_mode := false, st := sC3, input_bits := [], ff_bits := [(SigBit.wire 0 0, 1)],
    ci_bits := [SigBit.wire 0 0], co_bits := [], box_list := [],
    arrival_times := [], ff_init1 := [], init_map := [], a_payload := [], trailer := [] }

/-- The extension-section bytes of `wC5`. -/
def secC5 : List Nat := (extSections wC5).getD []

/-- Writer data with one register of mergeability class 5 whose arrival time
is 1.0f (IEEE-754 bit pattern 0x3F800000 = 1065353216). -/
def wC6 : XWriter :=
  { zinit_mode := false, st := sC3, input_bits := [], ff_bits := [(SigBit.wire 0 0, 5)],
    ci_bits := [SigBit.wire 0 0], co_bits := [], box_list := [],
    arrival_times := [(SigBit.wire 0 0, 1065353216)], ff_init1 := [], init_map := [],
    a_payload := [], trailer := [] }

/-- A one-inverter relation table (`wire 1 0` is the NOT of constant `S0`)
with a strictly decreasing depth measure. -/
def nl9 : Netlist := { not_map := [(SigBit.wire 1 0, SigBit.S0)], and_map := [], alias_map := [] }

def mu9 : SigBit → Nat := fun b => if b = SigBit.wire 1 0 then 1 else 0


/-! Association-list lemmas. -/

theorem alookup_append_some {κ α : Type} [DecidableEq κ] (k : κ) (m1 m2 : List (κ × α)) (v : α)
    (h : alookup k m1 = some v) : alookup k (m1 ++ m2) = some v := by
  induction m1 with
  | nil => simp [alookup] at h
  | cons p rest ih =>
    obtain ⟨k', v'⟩ := p
    by_cases hk : k = k' <;> simp_all [alookup]

theorem alookup_append_none {κ α : Type} [DecidableEq κ] (k : κ) (m1 m2 : List (κ × α))
    (h : alookup k m1 = none) : alookup k (m1 ++ m2) = alookup k m2 := by
  induction m1 with
  | nil => simp
  | cons p rest ih =>
    obtain ⟨k', v'⟩ := p
    by_cases hk : k = k' <;> simp_all [alookup]

theorem alookup_dictInsert_self {κ α : Type} [DecidableEq κ] (k : κ) (v : α) (m : List (κ × α)) :
    alookup k (dictInsert k v m) = some v := by
  induction m with
  | nil => simp [alookup, dictInsert]
  | cons p rest ih =>
    obtain ⟨k', v'⟩ := p
    by_cases hk : k = k' <;> simp_all [alookup, dictInsert]

theorem alookup_dictInsert_ne {κ α : Type} [DecidableEq κ] (k k' : κ) (v : α) (m : List (κ × α))
    (h : k ≠ k') : alookup k (dictInsert k' v m) = alookup k m := by
  induction m with
  | nil => simp [alookup, dictInsert, h]
  | cons p rest ih =>
    obtain ⟨k'', v''⟩ := p
    by_cases hk : k' = k'' <;> by_cases hk2 : k = k'' <;> simp_all [alookup, dictInsert]

theorem alookup_mem {κ α : Type} [DecidableEq κ] (k : κ) (m : List (κ × α)) (v : α)
    (h : alookup k m = some v) : (k, v) ∈ m := by
  induction m with
  | nil => simp [alookup] at h
  | cons p rest ih =>
    obtain ⟨k', v'⟩ := p
    by_cases hk : k = k' <;> simp_all [alookup]

theorem mem_dictInsert {κ α : Type} [DecidableEq κ] (p : κ × α) (k : κ) (v : α) (m : List (κ × α))
    (h : p ∈ dictInsert k v m) : p ∈ m ∨ p = (k, v) := by
  induction m with
  | nil => simp [dictInsert] at h; simp [h]
  | cons q rest ih =>
    obtain ⟨k', v'⟩ := q
    by_cases hk : k = k' <;> simp_all [dictInsert] <;> tauto

/-! Arithmetic of `^^^ 1` (literal complementation). -/

theorem two_mul_xor_one (k : Nat) : (2 * k) ^^^ 1 = 2 * k + 1 := by
  have h0 : (2 * k) = Nat.bit false k := by simp [Nat.bit]
  have h1 : (1 : Nat) = Nat.bit true 0 := by simp [Nat.bit]
  rw [h0, h1, Nat.xor_bit]
  simp [Nat.bit]

theorem two_mul_add_one_xor_one (k : Nat) : (2 * k + 1) ^^^ 1 = 2 * k := by
  have h0 : (2 * k + 1) = Nat.bit true k := by simp [Nat.bit]
  have h1 : (1 : Nat) = Nat.bit true 0 := by simp [Nat.bit]
  rw [h0, h1, Nat.xor_bit]
  simp [Nat.bit]

/-- Complementing a literal keeps it within the allocated variable range. -/
theorem xor_one_le (x m : Nat) (h : x ≤ 2 * m + 1) : x ^^^ 1 ≤ 2 * m + 1 := by
  rcases Nat.even_or_odd x with ⟨k, hk⟩ | ⟨k, hk⟩
  · subst hk
    rw [show k + k = 2 * k by omega, two_mul_xor_one]
    omega
  · subst hk
    rw [two_mul_add_one_xor_one]
    omega

/-! `auxEq` structural lemmas. -/

theorem auxEq_refl (s : XState) : XState.auxEq s s := by
  simp [XState.auxEq]

theorem auxEq_trans {s1 s2 s3 : XState} (h1 : XState.auxEq s1 s2) (h2 : XState.auxEq s2 s3) :
    XState.auxEq s1 s3 := by
  obtain ⟨a1, a2, a3, a4, a5, a6, a7, a8⟩ := h1
  obtain ⟨b1, b2, b3, b4, b5, b6, b7, b8⟩ := h2
  exact ⟨by omega, by omega, by omega, by rw [b4, a4], by rw [b5, a5], by rw [b6, a6],
         by rw [b7, a7], by rw [b8, a8]⟩

/-- Everything `mkgate` does: only `aig_m`, `aig_a` and `aig_gates` change,
the returned literal is the fresh even literal `2*aig_m`, and the invariant
is preserved when both operands reference allocated variables. -/
theorem mkgate_spec (s : XState) (b0 b1 : Nat) :
    (s.mkgate b0 b1).1.aig_map = s.aig_map ∧
    (s.mkgate b0 b1).1.aig_m = s.aig_m + 1 ∧
    XState.auxEq s (s.mkgate b0 b1).1 ∧
    (s.mkgate b0 b1).2 = 2 * (s.aig_m + 1) ∧
    (s.wf → b0 ≤ 2 * s.aig_m + 1 → b1 ≤ 2 * s.aig_m + 1 → (s.mkgate b0 b1).1.wf) := by
  refine ⟨rfl, rfl, by simp [XState.auxEq, XState.mkgate], rfl, ?_⟩
  rintro ⟨hw1, hw2, hw3, hw4⟩ h0 h1
  refine ⟨by simp [XState.mkgate, hw1], by simp [XState.mkgate]; omega, ?_, ?_⟩
  · intro p hp
    have := hw3 p (by simpa [XState.mkgate] using hp)
    simp only [XState.mkgate]
    omega
  intro i hi
  simp only [XState.mkgate, List.length_append, List.length_cons, List.length_nil] at hi ⊢
  by_cases hlt : i < s.aig_gates.length
  · have hl := hw4 i hlt
    rw [List.getElem_append_left hlt]
    exact ⟨hl.1, hl.2⟩
  · have hieq : i = s.aig_gates.length := by omega
    subst hieq
    rw [List.getElem_append_right (Nat.le_refl _)]
    simp only [Nat.sub_self, List.getElem_cons_zero]
    constructor
    · by_cases hgt : b0 > b1 <;> simp [hgt] <;> omega
    · by_cases hgt : b0 > b1 <;> simp [hgt] <;> omega

/-- Case analysis of a successful `bit2aigFinish`: the state is the input
state with `aig_map[bit] = a`, and the literal either came from the chain or
from the `Sx`/`Sz` override (in which case it is the memoized literal of
`S0`). -/
theorem bit2aigFinish_ok (bit : SigBit) (st1 st' : XState) (aOpt : Option Nat) (a : Nat)
    (h : bit2aigFinish bit st1 aOpt = Res.ok st' a) :
    st' = { st1 with aig_map := dictInsert bit a st1.aig_map } ∧
    (aOpt = some a ∨ alookup SigBit.S0 st1.aig_map = some a) := by
  by_cases hc : bit = SigBit.Sx ∨ bit = SigBit.Sz
  · simp only [bit2aigFinish, hc, if_true] at h
    cases hs : alookup SigBit.S0 st1.aig_map with
    | none => rw [hs] at h; exact absurd h (by simp)
    | some v =>
      rw [hs] at h
      simp only [Res.ok.injEq] at h
      obtain ⟨h1, h2⟩ := h
      subst h2
      exact ⟨h1.symm, Or.inr rfl⟩
  · simp only [bit2aigFinish, hc, if_false] at h
    cases haOpt : aOpt with
    | none => rw [haOpt] at h; exact absurd h (by simp)
    | some v =>
      rw [haOpt] at h
      simp only [Res.ok.injEq] at h
      obtain ⟨h1, h2⟩ := h
      subst h2
      exact ⟨h1.symm, Or.inl rfl⟩

/-- Lift the chain-step properties through `bit2aigFinish`: given that the
chain turned `st` into `stX` preserving the invariants, a successful finish
preserves them from `st` to the final state. -/
theorem bit2aig_finish_step (st stX st' : XState) (bit : SigBit) (aOpt : Option Nat) (a : Nat)
    (hmem : alookup bit st.aig_map = none)
    (hfin : bit2aigFinish bit stX aOpt = Res.ok st' a)
    (haux : XState.auxEq st stX) (hm : st.aig_m ≤ stX.aig_m)
    (hstab : ∀ k v, alookup k st.aig_map = some v → alookup k stX.aig_map = some v)
    (hwfX : st.wf → stX.wf)
    (hbound : st.wf → ∀ v, aOpt = some v → v ≤ 2 * stX.aig_m + 1) :
    XState.auxEq st st' ∧ st.aig_m ≤ st'.aig_m ∧
    (∀ k v, alookup k st.aig_map = some v → alookup k st'.aig_map = some v) ∧
    alookup bit st'.aig_map = some a ∧
    (st.wf → st'.wf ∧ a ≤ 2 * st'.aig_m + 1) := by
  obtain ⟨hst', hsrc⟩ := bit2aigFinish_ok bit stX st' aOpt a hfin
  subst hst'
  have hbound' : st.wf → a ≤ 2 * stX.aig_m + 1 := by
    intro hwf
    rcases hsrc with h1 | h2
    · exact hbound hwf a h1
    · exact (hwfX hwf).2.2.1 (SigBit.S0, a) (alookup_mem _ _ _ h2)
  refine ⟨auxEq_trans haux (by simp [XState.auxEq]), by simpa using hm, ?_, ?_, ?_⟩
  · intro k v hkv
    have hk : k ≠ bit := by
      intro hkb
      rw [hkb, hmem] at hkv
      exact absurd hkv (by simp)
    show alookup k (dictInsert bit a stX.aig_map) = some v
    rw [alookup_dictInsert_ne _ _ _ _ hk]
    exact hstab k v hkv
  · exact alookup_dictInsert_self bit a stX.aig_map
  · intro hwf
    obtain ⟨w1, w2, w3, w4⟩ := hwfX hwf
    refine ⟨⟨w1, w2, ?_, w4⟩, by simpa using hbound' hwf⟩
    intro p hp
    rcases mem_dictInsert p bit a stX.aig_map hp with hold | hnew
    · exact w3 p hold
    · rw [hnew]
      exact hbound' hwf

/-- The combined correctness properties of a successful `bit2aig` call: the
fields other than `aig_m`/`aig_a`/`aig_gates`/`aig_map` are untouched,
`aig_m` grows monotonically, existing memo entries survive, the translated
bit is memoized to the returned literal, and the builder invariant is
preserved with the returned literal referencing an allocated variable. -/
theorem bit2aig_ok (nl : Netlist) :
    ∀ (fuel : Nat) (st : XState) (bit : SigBit) (st' : XState) (a : Nat),
    bit2aig nl fuel st bit = Res.ok st' a →
    XState.auxEq st st' ∧ st.aig_m ≤ st'.aig_m ∧
    (∀ k v, alookup k st.aig_map = some v → alookup k st'.aig_map = some v) ∧
    alookup bit st'.aig_map = some a ∧
    (st.wf → st'.wf ∧ a ≤ 2 * st'.aig_m + 1) := by
  intro fuel
  induction fuel with
  | zero => intro st bit st' a h; exact absurd h (by simp [bit2aig])
  | succ fuel ih =>
    intro st bit st' a h
    rw [bit2aig] at h
    split at h
    · rename_i v hmem
      simp only [Res.ok.injEq] at h
      obtain ⟨rfl, rfl⟩ := h
      exact ⟨auxEq_refl st, Nat.le_refl _, fun k w hkw => hkw, hmem,
             fun hwf => ⟨hwf, hwf.2.2.1 (bit, v) (alookup_mem _ _ _ hmem)⟩⟩
    · rename_i hmem
      split at h
      · rename_i nb hnot
        split at h
        · rename_i st1 a1 hr
          obtain ⟨haux, hm, hstab, _, hwf1⟩ := ih st nb st1 a1 hr
          exact bit2aig_finish_step st st1 st' bit (some (a1 ^^^ 1)) a hmem h haux hm hstab
            (fun hwf => (hwf1 hwf).1)
            (fun hwf v hv => by
              obtain ⟨_, hb⟩ := hwf1 hwf
              obtain rfl : v = a1 ^^^ 1 := by simpa using hv.symm
              exact xor_one_le a1 st1.aig_m hb)
        · exact absurd h (by simp)
        · exact absurd h (by simp)
      · rename_i hnot
        split at h
        · rename_i args hand
          split at h
          · rename_i st1 b0 hr0
            split at h
            · rename_i st2 b1 hr1
              obtain ⟨haux0, hm0, hstab0, _, hwf0⟩ := ih st args.1 st1 b0 hr0
              obtain ⟨haux1, hm1, hstab1, _, hwf1⟩ := ih st1 args.2 st2 b1 hr1
              obtain ⟨hGmap, hGm, hGaux, hGlit, hGwf⟩ := mkgate_spec st2 b0 b1
              refine bit2aig_finish_step st (st2.mkgate b0 b1).1 st' bit
                (some (st2.mkgate b0 b1).2) a hmem h
                (auxEq_trans (auxEq_trans haux0 haux1) hGaux)
                (by omega) ?_ ?_ ?_
              · intro k v hkv
                rw [hGmap]
                exact hstab1 k v (hstab0 k v hkv)
              · intro hwf
                obtain ⟨hwfs1, hb0⟩ := hwf0 hwf
                obtain ⟨hwfs2, hb1⟩ := hwf1 hwfs1
                exact hGwf hwfs2 (by omega) hb1
              · intro hwf v hv
                obtain rfl : v = (st2.mkgate b0 b1).2 := by simpa using hv.symm
                rw [hGlit, hGm]
                omega
            · exact absurd h (by simp)
            · exact absurd h (by simp)
          · exact absurd h (by simp)
          · exact absurd h (by simp)
        · rename_i hand
          split at h
          · rename_i ab hal
            split at h
            · rename_i st1 a1 hr
              obtain ⟨haux, hm, hstab, _, hwf1⟩ := ih st ab st1 a1 hr
              exact bit2aig_finish_step st st1 st' bit (some a1) a hmem h haux hm hstab
                (fun hwf => (hwf1 hwf).1)
                (fun hwf v hv => by
                  obtain rfl : v = a1 := by simpa using hv.symm
                  exact (hwf1 hwf).2)
            · exact absurd h (by simp)
            · exact absurd h (by simp)
          · rename_i hal
            exact bit2aig_finish_step st st st' bit none a hmem h (auxEq_refl st)
              (Nat.le_refl _) (fun k v hkv => hkv) (fun hwf => hwf)
              (fun hwf v hv => by simp at hv)

/-- `bit2aigFinish` never consumes fuel: it either errors or succeeds. -/
theorem bit2aigFinish_ne_fuelOut (bit : SigBit) (st : XState) (aOpt : Option Nat) :
    bit2aigFinish bit st aOpt ≠ Res.fuelOut := by
  unfold bit2aigFinish
  split <;> simp

/-- Termination of `bit2aig` under acyclicity: if a depth measure `μ`
strictly decreases along every `not`/`and`/`alias` dependency edge (which is
exactly what the cycle-free ordering guarantees), then `bit2aig` with fuel
above `μ bit` never runs out of fuel — the C++ recursion terminates. -/
theorem bit2aig_no_fuelOut (nl : Netlist) (μ : SigBit → Nat)
    (hnotd : ∀ p ∈ nl.not_map, μ p.2 < μ p.1)
    (handd : ∀ p ∈ nl.and_map, μ p.2.1 < μ p.1 ∧ μ p.2.2 < μ p.1)
    (hald : ∀ p ∈ nl.alias_map, μ p.2 < μ p.1) :
    ∀ fuel st bit, μ bit < fuel → bit2aig nl fuel st bit ≠ Res.fuelOut := by
  intro fuel
  induction fuel with
  | zero => intro st bit hlt; omega
  | succ fuel ih =>
    intro st bit hlt h
    rw [bit2aig] at h
    split at h
    · exact absurd h (by simp)
    · rename_i hmem
      split at h
      · rename_i nb hnot
        have hd : μ nb < fuel := by
          have := hnotd (bit, nb) (alookup_mem _ _ _ hnot)
          simp at this
          omega
        split at h
        · exact absurd h (bit2aigFinish_ne_fuelOut _ _ _)
        · exact absurd h (by simp)
        · rename_i hr
          exact ih st nb hd hr
      · rename_i hnot
        split at h
        · rename_i args hand
          have hd := handd (bit, args) (alookup_mem _ _ _ hand)
          simp at hd
          split at h
          · rename_i st1 b0 hr0
            split at h
            · exact absurd h (bit2aigFinish_ne_fuelOut _ _ _)
            · exact absurd h (by simp)
            · rename_i hr1
              exact ih st1 args.2 (by omega) hr1
          · exact absurd h (by simp)
          · rename_i hr0
            exact ih st args.1 (by omega) hr0
        · rename_i hand
          split at h
          · rename_i ab hal
            have hd : μ ab < fuel := by
              have := hald (bit, ab) (alookup_mem _ _ _ hal)
              simp at this
              omega
            split at h
            · exact absurd h (bit2aigFinish_ne_fuelOut _ _ _)
            · exact absurd h (by simp)
            · rename_i hr
              exact ih st ab hd hr
          · exact absurd h (bit2aigFinish_ne_fuelOut _ _ _)

/-- Once a bit has been translated, every later call on it is a memo hit:
it returns the cached literal with the state unchanged. -/
theorem bit2aig_recall (nl : Netlist) (fuel : Nat) (st : XState) (bit : SigBit)
    (st' : XState) (a : Nat) (h : bit2aig nl fuel st bit = Res.ok st' a) :
    ∀ g, bit2aig nl (g + 1) st' bit = Res.ok st' a := by
  have hmemo := (bit2aig_ok nl fuel st bit st' a h).2.2.2.1
  intro g
  rw [bit2aig, hmemo]

/-! The 7-bit variable-length encoding round-trips. -/

theorem aiger_roundtrip (x : Nat) : ∀ rest, aiger_decode (aiger_encode x ++ rest) = some (x, rest) := by
  induction x using Nat.strong_induction_on with
  | _ x ih =>
    intro rest
    by_cases h : x < 128
    · rw [aiger_encode]
      simp [h, aiger_decode]
    · rw [aiger_encode]
      simp only [h, dite_false, List.cons_append]
      rw [aiger_decode]
      simp only [show ¬(x % 128 + 128 < 128) by omega, if_false]
      rw [ih (x / 128) (by omega) rest]
      simp
      omega

theorem encodeSeq_cons (x : Nat) (xs : List Nat) :
    encodeSeq (x :: xs) = aiger_encode x ++ encodeSeq xs := by
  simp [encodeSeq]

/-- Decoding `n` values from the encoding of an `n`-element sequence (plus
any suffix) gives back the sequence and the suffix. -/
theorem decodeN_encodeSeq (xs : List Nat) : ∀ rest : List Nat,
    decodeN xs.length (encodeSeq xs ++ rest) = some (xs, rest) := by
  induction xs with
  | nil => intro rest; simp [encodeSeq, decodeN]
  | cons x tail ih =>
    intro rest
    rw [List.length_cons, encodeSeq_cons, decodeN, List.append_assoc,
        aiger_roundtrip x (encodeSeq tail ++ rest)]
    simp only []
    rw [ih rest]

/-! Phase lemmas for the numbering / output-emission pipeline. -/

theorem addInput_spec (s : XState) (b : SigBit) (s' : XState) (h : addInput s b = some s') :
    s'.aig_l = s.aig_l ∧ s'.aig_o = s.aig_o ∧ s'.aig_outputs = s.aig_outputs ∧
    s'.ordered_outputs = s.ordered_outputs ∧ s'.ff_aig_map = s.ff_aig_map ∧
    s'.output_bits = s.output_bits ∧ s'.omode = s.omode ∧
    (∀ k v, alookup k s.aig_map = some v → alookup k s'.aig_map = some v) ∧
    (s.wf → s'.wf) := by
  unfold addInput at h
  split at h
  · exact absurd h (by simp)
  · simp only [Option.some.injEq] at h
    subst h
    refine ⟨rfl, rfl, rfl, rfl, rfl, rfl, rfl, ?_, ?_⟩
    · intro k v hkv
      exact alookup_append_some k _ _ v hkv
    · rintro ⟨w1, w2, w3, w4⟩
      refine ⟨w1, by simp; omega, ?_, ?_⟩
      · intro p hp
        simp only [List.mem_append, List.mem_singleton] at hp
        rcases hp with hold | hnew
        · have := w3 p hold
          simp only []
          omega
        · rw [hnew]
          simp
      · intro i hi
        have := w4 i hi
        simp only []
        exact ⟨this.1, by omega⟩

theorem addInputs_spec : ∀ (l : List SigBit) (s s' : XState), addInputs s l = some s' →
    s'.aig_l = s.aig_l ∧ s'.aig_o = s.aig_o ∧ s'.aig_outputs = s.aig_outputs ∧
    s'.ordered_outputs = s.ordered_outputs ∧ s'.ff_aig_map = s.ff_aig_map ∧
    s'.output_bits = s.output_bits ∧ s'.omode = s.omode ∧
    (∀ k v, alookup k s.aig_map = some v → alookup k s'.aig_map = some v) ∧
    (s.wf → s'.wf) := by
  intro l
  induction l with
  | nil =>
    intro s s' h
    simp only [addInputs, Option.some.injEq] at h
    subst h
    exact ⟨rfl, rfl, rfl, rfl, rfl, rfl, rfl, fun k v hv => hv, id⟩
  | cons b rest ih =>
    intro s s' h
    rw [addInputs] at h
    cases hstep : addInput s b with
    | none => rw [hstep] at h; exact absurd h (by simp)
    | some s1 =>
      rw [hstep] at h
      obtain ⟨a1, a2, a3, a4, a5, a6, a7, a8, a9⟩ := addInput_spec s b s1 hstep
      obtain ⟨b1, b2, b3, b4, b5, b6, b7, b8, b9⟩ := ih s1 s' h
      exact ⟨b1.trans a1, b2.trans a2, b3.trans a3, b4.trans a4, b5.trans a5,
             b6.trans a6, b7.trans a7, fun k v hv => b8 k v (a8 k v hv),
             fun hwf => b9 (a9 hwf)⟩

theorem addCi_spec (s : XState) (b : SigBit) :
    (addCi s b).aig_l = s.aig_l ∧ (addCi s b).aig_o = s.aig_o ∧
    (addCi s b).aig_outputs = s.aig_outputs ∧
    (addCi s b).ordered_outputs = s.ordered_outputs ∧
    (addCi s b).output_bits = s.output_bits ∧ (addCi s b).omode = s.omode ∧
    (∀ k v, alookup k s.aig_map = some v → alookup k (addCi s b).aig_map = some v) ∧
    (s.wf → (addCi s b).wf) := by
  unfold addCi
  split
  · refine ⟨rfl, rfl, rfl, rfl, rfl, rfl, fun k v hv => hv, ?_⟩
    rintro ⟨w1, w2, w3, w4⟩
    refine ⟨w1, by simp; omega, ?_, ?_⟩
    · intro p hp
      have := w3 p hp
      simp only []
      omega
    · intro i hi
      have := w4 i hi
      simp only []
      exact ⟨this.1, by omega⟩
  · refine ⟨rfl, rfl, rfl, rfl, rfl, rfl, ?_, ?_⟩
    · intro k v hkv
      exact alookup_append_some k _ _ v hkv
    · rintro ⟨w1, w2, w3, w4⟩
      refine ⟨w1, by simp; omega, ?_, ?_⟩
      · intro p hp
        simp only [List.mem_append, List.mem_singleton] at hp
        rcases hp with hold | hnew
        · have := w3 p hold
          simp only []
          omega
        · rw [hnew]
          simp
      · intro i hi
        have := w4 i hi
        simp only []
        exact ⟨this.1, by omega⟩

theorem addCis_spec : ∀ (l : List SigBit) (s : XState),
    (addCis s l).aig_l = s.aig_l ∧ (addCis s l).aig_o = s.aig_o ∧
    (addCis s l).aig_outputs = s.aig_outputs ∧
    (addCis s l).ordered_outputs = s.ordered_outputs ∧
    (addCis s l).output_bits = s.output_bits ∧ (addCis s l).omode = s.omode ∧
    (∀ k v, alookup k s.aig_map = some v → alookup k (addCis s l).aig_map = some v) ∧
    (s.wf → (addCis s l).wf) := by
  intro l
  induction l with
  | nil =>
    intro s
    exact ⟨rfl, rfl, rfl, rfl, rfl, rfl, fun k v hv => hv, id⟩
  | cons b rest ih =>
    intro s
    obtain ⟨a1, a2, a3, a4, a5, a6, a7, a8⟩ := addCi_spec s b
    obtain ⟨b1, b2, b3, b4, b5, b6, b7, b8⟩ := ih (addCi s b)
    exact ⟨b1.trans a1, b2.trans a2, b3.trans a3, b4.trans a4, b5.trans a5,
           b6.trans a6, fun k v hv => b7 k v (a7 k v hv), fun hwf => b8 (a8 hwf)⟩

theorem emitBit_spec (nl : Netlist) (fuel : Nat) (s : XState) (b : SigBit) (s' : XState)
    (h : emitBit nl fuel s b = some s') :
    s'.aig_l = s.aig_l ∧ s'.output_bits = s.output_bits ∧ s'.omode = s.omode ∧
    s'.ff_aig_map = s.ff_aig_map ∧ s'.aig_o = s.aig_o + 1 ∧
    (∃ a, s'.aig_outputs = s.aig_outputs ++ [a] ∧ alookup b s'.aig_map = some a) ∧
    (∀ k v, alookup k s.aig_map = some v → alookup k s'.aig_map = some v) ∧
    (s.wf → s'.wf) := by
  simp only [emitBit] at h
  split at h
  · rename_i s2 a hr
    simp only [Option.some.injEq] at h
    subst h
    obtain ⟨⟨x1, x2, x3, x4, x5, x6, x7, x8⟩, hm, hstab, hmemo, hwf⟩ :=
      bit2aig_ok nl fuel _ b s2 a hr
    refine ⟨x2, x7, x8, x6, by rw [x3], ⟨a, by rw [x4], hmemo⟩, hstab, fun hw => ?_⟩
    exact (hwf hw).1
  · exact absurd h (by simp)

theorem emitBits_spec (nl : Netlist) (fuel : Nat) : ∀ (l : List SigBit) (s s' : XState),
    emitBits nl fuel s l = some s' →
    s'.aig_l = s.aig_l ∧ s'.output_bits = s.output_bits ∧ s'.omode = s.omode ∧
    s'.ff_aig_map = s.ff_aig_map ∧ s'.aig_o = s.aig_o + l.length ∧
    (∃ part, s'.aig_outputs = s.aig_outputs ++ part ∧
       List.Forall₂ (fun b a => alookup b s'.aig_map = some a) l part) ∧
    (∀ k v, alookup k s.aig_map = some v → alookup k s'.aig_map = some v) ∧
    (s.wf → s'.wf) := by
  intro l
  induction l with
  | nil =>
    intro s s' h
    simp only [emitBits, Option.some.injEq] at h
    subst h
    exact ⟨rfl, rfl, rfl, rfl, by simp, ⟨[], by simp, List.Forall₂.nil⟩,
           fun k v hv => hv, id⟩
  | cons b rest ih =>
    intro s s' h
    rw [emitBits] at h
    cases hstep : emitBit nl fuel s b with
    | none => rw [hstep] at h; exact absurd h (by simp)
    | some s1 =>
      rw [hstep] at h
      obtain ⟨a1, a2, a3, a4, a5, ⟨a, ha, hamem⟩, astab, awf⟩ := emitBit_spec nl fuel s b s1 hstep
      obtain ⟨b1, b2, b3, b4, b5, ⟨part, hpart, hfa⟩, bstab, bwf⟩ := ih s1 s' h
      refine ⟨b1.trans a1, b2.trans a2, b3.trans a3, b4.trans a4, by rw [b5, a5]; simp; omega,
              ⟨a :: part, ?_, ?_⟩, fun k v hv => bstab k v (astab k v hv),
              fun hwf => bwf (awf hwf)⟩
      · rw [hpart, ha, List.append_assoc, List.singleton_append]
      · exact List.Forall₂.cons (bstab b a hamem) hfa

theorem emitFf_spec (s : XState) (b : SigBit) (s' : XState) (h : emitFf s b = some s') :
    s'.aig_l = s.aig_l ∧ s'.output_bits = s.output_bits ∧ s'.omode = s.omode ∧
    s'.ff_aig_map = s.ff_aig_map ∧ s'.aig_map = s.aig_map ∧ s'.aig_o = s.aig_o + 1 ∧
    (∃ a, s'.aig_outputs = s.aig_outputs ++ [a] ∧ alookup b s.ff_aig_map = some a) ∧
    (s.wf → s'.wf) := by
  unfold emitFf at h
  split at h
  · rename_i a hmem
    simp only [Option.some.injEq] at h
    subst h
    exact ⟨rfl, rfl, rfl, rfl, rfl, rfl, ⟨a, rfl, hmem⟩, fun hwf => hwf⟩
  · exact absurd h (by simp)

theorem emitFfs_spec : ∀ (l : List (SigBit × Nat)) (s s' : XState),
    emitFfs s l = some s' →
    s'.aig_l = s.aig_l ∧ s'.output_bits = s.output_bits ∧ s'.omode = s.omode ∧
    s'.ff_aig_map = s.ff_aig_map ∧ s'.aig_map = s.aig_map ∧ s'.aig_o = s.aig_o + l.length ∧
    (∃ part, s'.aig_outputs = s.aig_outputs ++ part ∧
       List.Forall₂ (fun p a => alookup p.1 s.ff_aig_map = some a) l part) ∧
    (s.wf → s'.wf) := by
  intro l
  induction l with
  | nil =>
    intro s s' h
    simp only [emitFfs, Option.some.injEq] at h
    subst h
    exact ⟨rfl, rfl, rfl, rfl, rfl, by simp, ⟨[], by simp, List.Forall₂.nil⟩, id⟩
  | cons p rest ih =>
    intro s s' h
    rw [emitFfs] at h
    cases hstep : emitFf s p.1 with
    | none => rw [hstep] at h; exact absurd h (by simp)
    | some s1 =>
      rw [hstep] at h
      obtain ⟨a1, a2, a3, a4, a5, a6, ⟨a, ha, hamem⟩, awf⟩ := emitFf_spec s p.1 s1 hstep
      obtain ⟨b1, b2, b3, b4, b5, b6, ⟨part, hpart, hfa⟩, bwf⟩ := ih s1 s' h
      refine ⟨b1.trans a1, b2.trans a2, b3.trans a3, b4.trans a4, b5.trans a5,
              by rw [b6, a6]; simp; omega, ⟨a :: part, ?_, ?_⟩, fun hwf => bwf (awf hwf)⟩
      · rw [hpart, ha, List.append_assoc, List.singleton_append]
      · refine List.Forall₂.cons hamem ?_
        have : s1.ff_aig_map = s.ff_aig_map := a4
        rw [← this]
        exact hfa

theorem initX_wf (l : List SigBit) : (initX l).wf := by
  refine ⟨rfl, rfl, ?_, ?_⟩
  · intro p hp
    simp only [initX, List.mem_cons, List.not_mem_nil, or_false] at hp
    rcases hp with h | h <;> rw [h] <;> simp [initX]
  · intro i hi
    simp [initX] at hi

/-- `fixupOutputs` only touches `output_bits`/`omode`. -/
theorem fixupOutputs_spec (s : XState) :
    (fixupOutputs s).aig_m = s.aig_m ∧ (fixupOutputs s).aig_i = s.aig_i ∧
    (fixupOutputs s).aig_l = s.aig_l ∧ (fixupOutputs s).aig_o = s.aig_o ∧
    (fixupOutputs s).aig_a = s.aig_a ∧ (fixupOutputs s).aig_gates = s.aig_gates ∧
    (fixupOutputs s).aig_outputs = s.aig_outputs ∧ (fixupOutputs s).aig_map = s.aig_map ∧
    (fixupOutputs s).ff_aig_map = s.ff_aig_map ∧
    (s.wf → (fixupOutputs s).wf) ∧
    (s.output_bits = [] → (fixupOutputs s).output_bits = [SigBit.S0] ∧
       (fixupOutputs s).omode = true) ∧
    (s.output_bits ≠ [] → (fixupOutputs s).output_bits = s.output_bits ∧
       (fixupOutputs s).omode = s.omode) ∧
    (fixupOutputs s).output_bits ≠ [] := by
  cases hob : s.output_bits with
  | nil =>
    have hif : fixupOutputs s = { s with output_bits := [SigBit.S0], omode := true } := by
      unfold fixupOutputs
      rw [hob]
      simp
    rw [hif]
    refine ⟨rfl, rfl, rfl, rfl, rfl, rfl, rfl, rfl, rfl, ?_, fun _ => ⟨rfl, rfl⟩,
            fun hne => absurd rfl hne, by simp⟩
    rintro ⟨w1, w2, w3, w4⟩
    exact ⟨w1, w2, w3, w4⟩
  | cons b rest =>
    have hif : fixupOutputs s = s := by
      unfold fixupOutputs
      rw [hob]
      simp
    rw [hif]
    exact ⟨rfl, rfl, rfl, rfl, rfl, rfl, rfl, rfl, rfl, id,
           fun he => absurd he (by simp), fun _ => ⟨hob, rfl⟩, by rw [hob]; simp⟩

/-- The combined facts about a successfully constructed writer state:
`aig_l` is 0, the builder invariant holds, the output list length equals
`aig_o`, which splits as box-inputs + primary outputs + registers; the
`omode` bookkeeping; `S0` keeps AIG literal 0; and the output list is the
concatenation of the `co_bits` translations, the `output_bits` translations
and the register entries read from `ff_aig_map`. -/
theorem buildAig_spec (nl : Netlist) (tb : Tables) (fuel : Nat) (s : XState)
    (h : buildAig nl tb fuel = some s) :
    s.aig_l = 0 ∧ s.wf ∧ s.aig_outputs.length = s.aig_o ∧
    s.aig_o = tb.co_bits.length + s.output_bits.length + tb.ff_bits.length ∧
    (tb.output_bits = [] → s.omode = true ∧ s.output_bits = [SigBit.S0]) ∧
    (tb.output_bits ≠ [] → s.output_bits = tb.output_bits ∧ s.omode = false) ∧
    alookup SigBit.S0 s.aig_map = some 0 ∧
    (∃ coPart outPart ffPart,
       s.aig_outputs = coPart ++ outPart ++ ffPart ∧
       List.Forall₂ (fun b a => alookup b s.aig_map = some a) tb.co_bits coPart ∧
       List.Forall₂ (fun b a => alookup b s.aig_map = some a) s.output_bits outPart ∧
       List.Forall₂ (fun p a => alookup p.1 s.ff_aig_map = some a) tb.ff_bits ffPart) := by
  unfold buildAig at h
  cases h1 : addInputs (initX tb.output_bits) tb.input_bits with
  | none => rw [h1] at h; exact absurd h (by simp)
  | some s1 =>
  rw [h1] at h
  simp only [] at h
  cases h2 : addInputs s1 (tb.ff_bits.map Prod.fst) with
  | none => rw [h2] at h; exact absurd h (by simp)
  | some s2 =>
  rw [h2] at h
  simp only [] at h
  cases h4 : emitBits nl fuel (addCis s2 tb.ci_bits) tb.co_bits with
  | none => rw [h4] at h; exact absurd h (by simp)
  | some s4 =>
  rw [h4] at h
  simp only [] at h
  cases h6 : emitBits nl fuel (fixupOutputs s4) (fixupOutputs s4).output_bits with
  | none => rw [h6] at h; exact absurd h (by simp)
  | some s6 =>
  rw [h6] at h
  simp only [] at h
  cases h7 : emitFfs s6 tb.ff_bits with
  | none => rw [h7] at h; exact absurd h (by simp)
  | some s7 =>
  rw [h7] at h
  simp only [] at h
  simp only [Option.some.injEq] at h
  obtain ⟨i1l, i1o, i1out, i1ord, i1ff, i1ob, i1om, i1stab, i1wf⟩ := addInputs_spec _ _ _ h1
  obtain ⟨i2l, i2o, i2out, i2ord, i2ff, i2ob, i2om, i2stab, i2wf⟩ := addInputs_spec _ _ _ h2
  obtain ⟨i3l, i3o, i3out, i3ord, i3ob, i3om, i3stab, i3wf⟩ := addCis_spec tb.ci_bits s2
  obtain ⟨i4l, i4ob, i4om, i4ff, i4o, ⟨coPart, hco, hcofa⟩, i4stab, i4wf⟩ := emitBits_spec _ _ _ _ _ h4
  obtain ⟨f1, f2, f3, f4, f5, f6, f7, f8, f9, fwf, fempty, fnonempty, fne⟩ := fixupOutputs_spec s4
  obtain ⟨i6l, i6ob, i6om, i6ff, i6o, ⟨outPart, hout, houtfa⟩, i6stab, i6wf⟩ := emitBits_spec _ _ _ _ _ h6
  obtain ⟨i7l, i7ob, i7om, i7ff, i7map, i7o, ⟨ffPart, hff, hfffa⟩, i7wf⟩ := emitFfs_spec _ _ _ h7
  have hs7ne : s7.output_bits ≠ [] := by
    rw [i7ob, i6ob]
    exact fne
  have hs : s = s7 := by
    rw [← h]
    unfold finalOmode
    cases hob : s7.output_bits with
    | nil => exact absurd hob hs7ne
    | cons b rest => simp [hob]
  subst hs
  have hobinit : s4.output_bits = tb.output_bits := by
    rw [i4ob, i3ob, i2ob, i1ob]
    rfl
  have hsob : s.output_bits = (fixupOutputs s4).output_bits := by
    rw [i7ob, i6ob]
  have e0 : (addCis s2 tb.ci_bits).aig_outputs = ([] : List Nat) := by
    rw [i3out, i2out, i1out]
    rfl
  have e1 : s4.aig_outputs = coPart := by
    rw [hco, e0, List.nil_append]
  have e2 : s6.aig_outputs = coPart ++ outPart := by
    rw [hout, f7, e1]
  have e3 : s.aig_outputs = coPart ++ outPart ++ ffPart := by
    rw [hff, e2]
  have o0 : (addCis s2 tb.ci_bits).aig_o = 0 := by
    rw [i3o, i2o, i1o]
    rfl
  have o4 : s4.aig_o = tb.co_bits.length := by
    rw [i4o, o0, Nat.zero_add]
  have o6 : s6.aig_o = tb.co_bits.length + (fixupOutputs s4).output_bits.length := by
    rw [i6o, f4, o4]
  have o7 : s.aig_o = tb.co_bits.length + (fixupOutputs s4).output_bits.length
      + tb.ff_bits.length := by
    rw [i7o, o6]
  have lco := List.Forall₂.length_eq hcofa
  have lout := List.Forall₂.length_eq houtfa
  have lff := List.Forall₂.length_eq hfffa
  constructor
  · rw [i7l, i6l, f3, i4l, i3l, i2l, i1l]
    rfl
  constructor
  · exact i7wf (i6wf (fwf (i4wf (i3wf (i2wf (i1wf (initX_wf _)))))))
  constructor
  · rw [e3, o7]
    simp only [List.length_append]
    omega
  constructor
  · rw [o7, hsob]
  constructor
  · intro hempty
    rw [← hobinit] at hempty
    obtain ⟨he1, he2⟩ := fempty hempty
    constructor
    · rw [i7om, i6om, he2]
    · rw [hsob, he1]
  constructor
  · intro hne
    rw [← hobinit] at hne
    obtain ⟨he1, he2⟩ := fnonempty hne
    constructor
    · rw [hsob, he1, hobinit]
    · rw [i7om, i6om, he2, i4om, i3om, i2om, i1om]
      rfl
  constructor
  · have h0 : alookup SigBit.S0 (initX tb.output_bits).aig_map = some 0 := by
      simp [initX, alookup]
    have h4map : alookup SigBit.S0 s4.aig_map = some 0 :=
      i4stab _ _ (i3stab _ _ (i2stab _ _ (i1stab _ _ h0)))
    rw [i7map]
    exact i6stab _ _ (by rw [f8]; exact h4map)
  · refine ⟨coPart, outPart, ffPart, e3, ?_, ?_, ?_⟩
    · refine List.Forall₂.imp ?_ hcofa
      intro b a hba
      rw [i7map]
      exact i6stab _ _ (by rw [f8]; exact hba)
    · rw [hsob]
      refine List.Forall₂.imp ?_ houtfa
      intro b a hba
      rw [i7map]
      exact hba
    · have hffm : s.ff_aig_map = s6.ff_aig_map := i7ff
      rw [hffm]
      exact hfffa

/-! Serializer byte-level lemmas. -/

/-- The byte-swap-then-raw-write pipeline of `write_buffer` produces exactly
the big-endian byte sequence for every 32-bit value. -/
theorem write_buffer_eq_be32 (n : Nat) (h : n < 2 ^ 32) : write_buffer n = be32 n := by
  unfold write_buffer to_big_endian bswap32 leBytes be32
  rw [Nat.mod_eq_of_lt h]
  have key : ∀ a b c d : Nat, a < 256 → b < 256 → c < 256 → d < 256 →
      ((a * 2 ^ 24 + b * 2 ^ 16 + c * 2 ^ 8 + d) % 256 = d ∧
       (a * 2 ^ 24 + b * 2 ^ 16 + c * 2 ^ 8 + d) / 2 ^ 8 % 256 = c ∧
       (a * 2 ^ 24 + b * 2 ^ 16 + c * 2 ^ 8 + d) / 2 ^ 16 % 256 = b ∧
       (a * 2 ^ 24 + b * 2 ^ 16 + c * 2 ^ 8 + d) / 2 ^ 24 % 256 = a) := by
    intro a b c d ha hb hc hd
    refine ⟨?_, ?_, ?_, ?_⟩ <;> omega
  obtain ⟨k1, k2, k3, k4⟩ := key (n % 256) (n / 2 ^ 8 % 256) (n / 2 ^ 16 % 256) (n / 2 ^ 24 % 256)
    (by omega) (by omega) (by omega) (by omega)
  rw [k1, k2, k3, k4]

/-- `write_buffer_float` writes the reversed (little-endian) byte sequence of
the big-endian encoding. -/
theorem write_buffer_float_rev (p : Nat) (h : p < 2 ^ 32) :
    write_buffer_float p = (be32 p).reverse := by
  unfold write_buffer_float leBytes be32
  rw [Nat.mod_eq_of_lt h]
  simp

theorem rd32_write_buffer (n : Nat) (h : n < 2 ^ 32) : rd32 (write_buffer n) = n := by
  rw [write_buffer_eq_be32 n h]
  simp only [be32, rd32]
  omega

theorem write_buffer_length (n : Nat) : (write_buffer n).length = 4 := by
  simp [write_buffer, leBytes]

/-- The register loop fills the `r` buffer with exactly the mergeability
words and the `i` buffer with exactly the arrival-time floats. -/
theorem ffRegLoop_spec (arr : List (SigBit × Nat)) : ∀ l : List (SigBit × Nat),
    (ffRegLoop arr l).1 = (l.map fun q => write_buffer q.2).flatten ∧
    (ffRegLoop arr l).2 = (l.map fun q => write_buffer_float (alookupD q.1 arr 0)).flatten := by
  intro l
  induction l with
  | nil => simp [ffRegLoop]
  | cons q rest ih =>
    obtain ⟨q1, q2⟩ := q
    simp [ffRegLoop, ih.1, ih.2]

/-- Reading one framed section: the walker consumes the tag, the 4-byte
big-endian length and the payload, leaving the rest. -/
theorem tagWalk_section (k t : Nat) (p rest : List Nat) (hp : p.length < 2 ^ 32) :
    tagWalk (k + 1) (tagSection t p ++ rest) = t :: tagWalk k rest := by
  have hwb : (write_buffer p.length).length = 4 := write_buffer_length _
  have hstream : tagSection t p ++ rest = t :: ((write_buffer p.length ++ p) ++ rest) := by
    simp [tagSection]
  rw [hstream]
  show t :: tagWalk k (((write_buffer p.length ++ p) ++ rest).drop
        (4 + rd32 (((write_buffer p.length ++ p) ++ rest).take 4))) = t :: tagWalk k rest
  have htake : ((write_buffer p.length ++ p) ++ rest).take 4 = write_buffer p.length := by
    rw [List.append_assoc]
    exact List.take_left' hwb
  rw [htake, rd32_write_buffer p.length hp]
  congr 1
  congr 1
  refine List.drop_left' ?_
  rw [List.length_append, hwb]

/-! Kahn-style topological sort lemmas (for the spec-modelled `TopoSort`). -/

theorem exists_min_nat (f : Nat → Nat) : ∀ l : List Nat, l ≠ [] → ∃ a ∈ l, ∀ b ∈ l, f a ≤ f b := by
  intro l
  induction l with
  | nil => intro h; exact absurd rfl h
  | cons x rest ih =>
    intro _
    by_cases hr : rest = []
    · subst hr
      exact ⟨x, by simp, by simp⟩
    · obtain ⟨a, ha, hmin⟩ := ih hr
      by_cases hxa : f x ≤ f a
      · refine ⟨x, by simp, ?_⟩
        intro b hb
        rcases List.mem_cons.mp hb with rfl | hb
        · exact Nat.le_refl _
        · exact Nat.le_trans hxa (hmin b hb)
      · refine ⟨a, by simp [ha], ?_⟩
        intro b hb
        rcases List.mem_cons.mp hb with rfl | hb
        · omega
        · exact hmin b hb

/-- On an acyclic graph (witnessed by a measure increasing along edges) a
nonempty remaining set always contains a node with no incoming edge, so the
selection step succeeds. -/
theorem topoStep_some (edges : List (Nat × Nat)) (μ : Nat → Nat)
    (hdec : ∀ p ∈ edges, μ p.1 < μ p.2) (remaining : List Nat) (hne : remaining ≠ []) :
    (topoStep edges remaining).isSome := by
  obtain ⟨a, ha, hmin⟩ := exists_min_nat μ remaining hne
  cases hstep : topoStep edges remaining with
  | some n => simp
  | none =>
    exfalso
    have hall := List.find?_eq_none.mp hstep a ha
    simp only [List.all_eq_true, decide_eq_true_eq, not_forall] at hall
    obtain ⟨m, hm, hedge⟩ := hall
    simp only [Decidable.not_not] at hedge
    have h1 : μ m < μ a := by simpa using hdec (m, a) hedge
    have h2 := hmin m hm
    omega

/-- With enough fuel, the sort on an acyclic graph returns a permutation of
the remaining nodes. -/
theorem topoGo_perm (edges : List (Nat × Nat)) (μ : Nat → Nat)
    (hdec : ∀ p ∈ edges, μ p.1 < μ p.2) :
    ∀ (fuel : Nat) (remaining : List Nat), remaining.length ≤ fuel →
      (topoGo edges fuel remaining).Perm remaining := by
  intro fuel
  induction fuel with
  | zero =>
    intro remaining h
    have : remaining = [] := List.eq_nil_of_length_eq_zero (by omega)
    rw [this, topoGo]
  | succ fuel ih =>
    intro remaining h
    rw [topoGo]
    cases hstep : topoStep edges remaining with
    | none =>
      cases hre : remaining with
      | nil => simp
      | cons r t =>
        exfalso
        have := topoStep_some edges μ hdec remaining (by rw [hre]; simp)
        rw [hstep] at this
        simp at this
    | some n =>
      have hn : n ∈ remaining := List.mem_of_find?_eq_some hstep
      have hperm := ih (remaining.erase n) (by rw [List.length_erase_of_mem hn]; omega)
      exact (hperm.cons n).trans (List.perm_cons_erase hn).symm

/-- A cycle entirely inside the remaining set blocks the sort: no member of
the cycle is ever selectable, so the computed order misses at least one
node. -/
theorem topoGo_cycle_short (edges : List (Nat × Nat)) (c : List Nat) (hc : isCycle edges c) :
    ∀ (fuel : Nat) (remaining : List Nat), (∀ x ∈ c, x ∈ remaining) →
      (topoGo edges fuel remaining).length + 1 ≤ remaining.length := by
  have hcne : c ≠ [] := hc.1
  have hhead : ∃ x, x ∈ c := by
    cases hcc : c with
    | nil => exact absurd hcc hcne
    | cons x t => exact ⟨x, by simp⟩
  obtain ⟨x0, hx0⟩ := hhead
  intro fuel
  induction fuel with
  | zero =>
    intro remaining hsub
    have : x0 ∈ remaining := hsub x0 hx0
    have : remaining ≠ [] := fun he => by rw [he] at this; simp at this
    rw [topoGo]
    simp only [List.length_nil]
    cases hre : remaining with
    | nil => exact absurd hre this
    | cons r t => simp
  | succ fuel ih =>
    intro remaining hsub
    rw [topoGo]
    cases hstep : topoStep edges remaining with
    | none =>
      have : x0 ∈ remaining := hsub x0 hx0
      have hne : remaining ≠ [] := fun he => by rw [he] at this; simp at this
      simp only [List.length_nil]
      cases hre : remaining with
      | nil => exact absurd hre hne
      | cons r t => simp
    | some n =>
      have hn : n ∈ remaining := List.mem_of_find?_eq_some hstep
      have hpred := List.find?_some hstep
      simp only [List.all_eq_true, decide_eq_true_eq] at hpred
      have hnc : n ∉ c := by
        intro hmem
        obtain ⟨i, hi, hget⟩ := List.mem_iff_getElem.mp hmem
        have hlen : 0 < c.length := by omega
        have hj : (i + (c.length - 1)) % c.length < c.length := Nat.mod_lt _ hlen
        have hedge := hc.2 ((i + (c.length - 1)) % c.length) hj
        have hgetD : c.getD i 0 = n := by
          rw [List.getD_eq_getElem c 0 hi]
          exact hget
        have hnext : ((i + (c.length - 1)) % c.length + 1) % c.length = i := by
          rcases Nat.eq_zero_or_pos i with hi0 | hip
          · subst hi0
            have h1 : (0 + (c.length - 1)) % c.length = c.length - 1 := by
              rw [Nat.zero_add]
              exact Nat.mod_eq_of_lt (by omega)
            rw [h1, show c.length - 1 + 1 = c.length from by omega, Nat.mod_self]
          · have h1 : (i + (c.length - 1)) % c.length = i - 1 := by
              rw [show i + (c.length - 1) = (i - 1) + c.length from by omega, Nat.add_mod_right]
              exact Nat.mod_eq_of_lt (by omega)
            rw [h1, show i - 1 + 1 = i from by omega]
            exact Nat.mod_eq_of_lt hi
        rw [hnext, hgetD] at hedge
        have hpredmem : c.getD ((i + (c.length - 1)) % c.length) 0 ∈ remaining := by
          refine hsub _ ?_
          rw [List.getD_eq_getElem c 0 hj]
          exact List.getElem_mem _
        exact hpred _ hpredmem hedge
      have hsub' : ∀ x ∈ c, x ∈ remaining.erase n := by
        intro x hx
        have hxn : x ≠ n := fun he => hnc (he ▸ hx)
        exact (List.mem_erase_of_ne hxn).mpr (hsub x hx)
      have := ih (remaining.erase n) hsub'
      rw [List.length_erase_of_mem hn] at this
      have hrlen : 1 ≤ remaining.length := by
        have hne : remaining ≠ [] := fun he => by rw [he] at hn; simp at hn
        cases remaining with
        | nil => exact absurd rfl hne
        | cons r t => simp
      simp only [List.length_cons]
      omega

/-! `promoteClass` lemmas (spec-modelled signal canonicalizer). -/

/-- A representative choice, once made, survives later promotion passes. -/
theorem promoteClass_stable (cls : WireBit → Bool) :
    ∀ (l : List WireBit) (reps : List (Nat × WireBit)) (n : Nat) (r : WireBit),
    alookup n reps = some r → alookup n (promoteClass cls reps l) = some r := by
  intro l
  induction l with
  | nil => intro reps n r h; exact h
  | cons b rest ih =>
    intro reps n r h
    rw [promoteClass]
    split
    · exact ih _ n r (alookup_append_some n _ _ r h)
    · exact ih _ n r h

/-- After a promotion pass, every node touched by a bit of the pass's class
has a representative. -/
theorem promoteClass_covers (cls : WireBit → Bool) :
    ∀ (l : List WireBit) (reps : List (Nat × WireBit)) (b : WireBit),
    b ∈ l → cls b = true → (alookup b.node (promoteClass cls reps l)).isSome := by
  intro l
  induction l with
  | nil => intro reps b h; simp at h
  | cons x rest ih =>
    intro reps b hmem hcls
    rcases List.mem_cons.mp hmem with rfl | hmem
    · rw [promoteClass]
      by_cases hcond : cls b = true ∧ (alookup b.node reps).isNone
      · rw [if_pos hcond]
        have hb : alookup b.node (reps ++ [(b.node, b)]) = some b := by
          rw [alookup_append_none _ _ _ (Option.isNone_iff_eq_none.mp hcond.2)]
          simp [alookup]
        rw [promoteClass_stable cls rest _ _ _ hb]
        simp
      · rw [if_neg hcond]
        cases hlk : alookup b.node reps with
        | none =>
          exact absurd ⟨hcls, by rw [hlk]; simp⟩ hcond
        | some r =>
          rw [promoteClass_stable cls rest _ _ _ hlk]
          simp
    · rw [promoteClass]
      split
      · exact ih _ b hmem hcls
      · exact ih _ b hmem hcls

/-- Provenance: a representative found after a pass either predates the pass
or is a bit of this pass's class sitting on that node. -/
theorem promoteClass_from (cls : WireBit → Bool) :
    ∀ (l : List WireBit) (reps : List (Nat × WireBit)) (n : Nat) (r : WireBit),
    alookup n (promoteClass cls reps l) = some r →
    alookup n reps = some r ∨ (r ∈ l ∧ cls r = true ∧ r.node = n) := by
  intro l
  induction l with
  | nil => intro reps n r h; exact Or.inl h
  | cons b rest ih =>
    intro reps n r h
    rw [promoteClass] at h
    split at h
    · rename_i hcond
      rcases ih _ n r h with hold | hnew
      · cases hlk : alookup n reps with
        | some v =>
          rw [alookup_append_some n reps _ v hlk] at hold
          obtain rfl : v = r := by injection hold
          exact Or.inl rfl
        | none =>
          rw [alookup_append_none n reps _ hlk] at hold
          by_cases hn : n = b.node
          · subst hn
            simp only [alookup, if_pos rfl] at hold
            obtain rfl : b = r := by injection hold
            exact Or.inr ⟨List.mem_cons_self b rest, hcond.1, rfl⟩
          · simp only [alookup, if_neg hn] at hold
            exact absurd hold (by simp)
      · exact Or.inr ⟨List.mem_cons_of_mem b hnew.1, hnew.2.1, hnew.2.2⟩
    · rcases ih _ n r h with hold | hnew
      · exact Or.inl hold
      · exact Or.inr ⟨List.mem_cons_of_mem b hnew.1, hnew.2.1, hnew.2.2⟩

/-! Map-writer lemmas. -/

theorem foldl_fixed {α β : Type} (f : α → β → α) (hf : ∀ a b, f a b = a) :
    ∀ (l : List β) (a : α), l.foldl f a = a := by
  intro l
  induction l with
  | nil => intro a; rfl
  | cons x rest ih =>
    intro a
    rw [List.foldl_cons, hf, ih]

/-- When the output pool is exactly the dummy `S0` bit, no wire bit matches,
so the collection loop contributes nothing. -/
theorem collectOutLines_skip (st : XState) (zinit : Bool) (init_map : List (SigBit × Bool))
    (coLen : Nat) (hout : st.output_bits = [SigBit.S0]) :
    ∀ (wires : List (Nat × Nat)) (acc : List (Nat × List MapLine)),
    collectOutLines st zinit init_map coLen wires acc = acc := by
  intro wires
  induction wires with
  | nil => intro acc; rfl
  | cons p rest ih =>
    intro acc
    obtain ⟨id, width⟩ := p
    rw [collectOutLines]
    rw [foldl_fixed _ (fun a i => by rw [hout]; simp) (List.range width) acc]
    exact ih acc

/-- The omode map output: exactly the one placeholder line. -/
theorem writeMapOutputs_omode (st : XState) (zinit : Bool) (init_map : List (SigBit × Bool))
    (coLen : Nat) (wires : List (Nat × Nat)) (hom : st.omode = true)
    (hout : st.output_bits = [SigBit.S0]) :
    writeMapOutputs st zinit init_map coLen wires = [MapLine.outDummy] := by
  unfold writeMapOutputs
  rw [collectOutLines_skip st zinit init_map coLen hout wires []]
  rw [hom, hout]
  simp [sortByKey, dictSet]

/-! Claim theorems. -/

/-- Claim C1: for every sequence of non-negative integers, the 7-bit
little-group variable-length encoding written by `aiger_encode`, when
decoded, reproduces the original integers exactly; and in every builder
state reachable by `bit2aig` from a well-formed state both binary gate
deltas `lhs - rhs0` and `rhs0 - rhs1` are non-negative, because `mkgate`
stores the larger operand first and the freshly allocated gate literal
`2*aig_m` is numerically greater than both operand literals. -/
theorem aiger_encoding_roundtrip_and_deltas (xs rest : List Nat) (nl : Netlist) (fuel : Nat)
    (st st' : XState) (bit : SigBit) (a a0 a1 : Nat)
    (hwf : st.wf) (h : bit2aig nl fuel st bit = Res.ok st' a)
    (h0 : a0 ≤ 2 * st.aig_m + 1) (h1 : a1 ≤ 2 * st.aig_m + 1) :
    decodeN xs.length (encodeSeq xs ++ rest) = some (xs, rest) ∧
    deltasOk st' ∧
    a0 < (st.mkgate a0 a1).2 ∧ a1 < (st.mkgate a0 a1).2 := by
  obtain ⟨_, _, _, _, hwf'⟩ := bit2aig_ok nl fuel st bit st' a h
  obtain ⟨hwfs, _⟩ := hwf' hwf
  obtain ⟨w1, w2, w3, w4⟩ := hwfs
  refine ⟨decodeN_encodeSeq xs rest, ?_, by simp [XState.mkgate]; omega,
          by simp [XState.mkgate]; omega⟩
  intro d hd
  simp only [gateDeltas, List.mem_map, List.mem_range] at hd
  obtain ⟨i, hi, hdef⟩ := hd
  have hig : i < st'.aig_gates.length := by omega
  have hg := w4 i hig
  have hgd : st'.aig_gates.getD i (0, 0) = st'.aig_gates[i] := List.getD_eq_getElem _ _ hig
  subst hdef
  simp only [hgd]
  have h2 := hg.1
  have h3 := hg.2
  constructor <;> omega

theorem aiger_encoding_roundtrip_and_deltas_witness :
    ((initX []).wf ∧ bit2aig nlE 1 (initX []) SigBit.S0 = Res.ok (initX []) 0 ∧
     (1 : Nat) ≤ 2 * (initX []).aig_m + 1 ∧ (0 : Nat) ≤ 2 * (initX []).aig_m + 1) ∧
    (decodeN [3, 300].length (encodeSeq [3, 300] ++ [7]) = some ([3, 300], [7]) ∧
     deltasOk (initX []) ∧
     1 < ((initX []).mkgate 1 0).2 ∧ 0 < ((initX []).mkgate 1 0).2) :=
  ⟨⟨by decide, by decide, by decide, by decide⟩,
   aiger_encoding_roundtrip_and_deltas [3, 300] [7] nlE 1 (initX []) (initX []) SigBit.S0 0 1 0
     (by decide) (by decide) (by decide) (by decide)⟩

/-- Claim C2: in every produced encoding the header counts satisfy
`M = I + L + A` with `L = 0` (registers surface as extra inputs and outputs,
never as native latches), and the emitted output section has exactly `aig_o`
literals, which equals box-output-bit count + primary output count +
register count. -/
theorem header_counts_consistent (nl : Netlist) (tb : Tables) (fuel : Nat) (s : XState)
    (h : buildAig nl tb fuel = some s) :
    s.aig_m = s.aig_i + s.aig_l + s.aig_a ∧ s.aig_l = 0 ∧
    s.aig_outputs.length = s.aig_o ∧
    s.aig_o = tb.co_bits.length + s.output_bits.length + tb.ff_bits.length := by
  obtain ⟨hl, hwf, hlen, ho, _⟩ := buildAig_spec nl tb fuel s h
  exact ⟨hwf.2.1, hl, hlen, ho⟩

theorem header_counts_consistent_witness :
    buildAig nlW tbW 9 = some sW ∧
    (sW.aig_m = sW.aig_i + sW.aig_l + sW.aig_a ∧ sW.aig_l = 0 ∧
     sW.aig_outputs.length = sW.aig_o ∧
     sW.aig_o = tbW.co_bits.length + sW.output_bits.length + tbW.ff_bits.length) :=
  ⟨by decide, header_counts_consistent nlW tbW 9 sW (by decide)⟩

/-- Claim C3 counterexample: for the concrete tables `tbC3` (one register
with D-bit `wire 0 0` that reappears as a box output), the final output
group's register entry is the literal 4 read from `ff_aig_map` (the fresh
box-output literal), while `translate`/`bit2aig` of that D-bit returns the
memoized literal 2 (the current-state input literal) — so the register entry
is not "the AIG literal computed by translate/bit2aig of the register's
D-bit" as the claim states. -/
theorem register_entry_not_translate_counterexample :
    buildAig nlE tbC3 9 = some sC3 ∧
    tbC3.co_bits.length = 0 ∧ sC3.output_bits.length = 1 ∧
    sC3.aig_outputs = [0, 4] ∧
    bit2aig nlE 1 sC3 (SigBit.wire 0 0) = Res.ok sC3 2 ∧
    (4 : Nat) ≠ 2 := by decide

/-- Claim C3 (amended): the output list is, in order, one translated literal
per box-output-bit (dependency order), one translated literal per primary
output (sorted order), and, as the final group, one entry per register in
insertion order — but each register's entry is the literal recorded in
`ff_aig_map` for its D-bit (the fresh combinational-input literal allocated
when the D-bit reappeared as a box output, i.e. the box-computed next-state),
not the memoized `translate`/`bit2aig` literal of the D-bit (which is the
current-state input literal). -/
theorem output_list_structure (nl : Netlist) (tb : Tables) (fuel : Nat) (s : XState)
    (h : buildAig nl tb fuel = some s) :
    ∃ coPart outPart ffPart,
      s.aig_outputs = coPart ++ outPart ++ ffPart ∧
      List.Forall₂ (fun b a => alookup b s.aig_map = some a) tb.co_bits coPart ∧
      List.Forall₂ (fun b a => alookup b s.aig_map = some a) s.output_bits outPart ∧
      List.Forall₂ (fun p a => alookup p.1 s.ff_aig_map = some a) tb.ff_bits ffPart :=
  (buildAig_spec nl tb fuel s h).2.2.2.2.2.2.2

theorem output_list_structure_witness :
    buildAig nlW tbW 9 = some sW ∧
    (∃ coPart outPart ffPart,
      sW.aig_outputs = coPart ++ outPart ++ ffPart ∧
      List.Forall₂ (fun b a => alookup b sW.aig_map = some a) tbW.co_bits coPart ∧
      List.Forall₂ (fun b a => alookup b sW.aig_map = some a) sW.output_bits outPart ∧
      List.Forall₂ (fun p a => alookup p.1 sW.ff_aig_map = some a) tbW.ff_bits ffPart) :=
  ⟨by decide, output_list_structure nlW tbW 9 sW (by decide)⟩

/-! C4 assembly lemmas. -/

theorem firstClass_le_three (b : WireBit) : firstClass b ≤ 3 := by
  unfold firstClass
  split
  · omega
  · split
    · omega
    · split <;> omega

/-- Any representative surviving to the final table comes from one of the
three promotion passes. -/
theorem canonReps_from (bits : List WireBit) (n : Nat) (r : WireBit)
    (h : alookup n (canonReps bits) = some r) :
    r ∈ bits ∧ r.node = n ∧ firstClass r ≤ 2 := by
  unfold canonReps at h
  rcases promoteClass_from _ bits _ n r h with h1 | h1
  · rcases promoteClass_from _ bits _ n r h1 with h2 | h2
    · rcases promoteClass_from _ bits _ n r h2 with h3 | h3
      · simp [alookup] at h3
      · exact ⟨h3.1, h3.2.2, by unfold firstClass; rw [if_pos h3.2.1]; omega⟩
    · refine ⟨h2.1, h2.2.2, ?_⟩
      unfold firstClass
      split
      · omega
      · rw [if_pos h2.2.1]
        omega
  · refine ⟨h1.1, h1.2.2, ?_⟩
    unfold firstClass
    split
    · omega
    · split
      · omega
      · rw [if_pos h1.2.1]

theorem canonReps_stage0 (bits : List WireBit) (b : WireBit) (hb : b ∈ bits)
    (hpub : b.isPublic = true) :
    ∃ r, alookup b.node (canonReps bits) = some r ∧ firstClass r = 0 := by
  have hcov := promoteClass_covers (fun x => x.isPublic) bits [] b hb hpub
  cases h0 : alookup b.node (promoteClass (fun x => x.isPublic) [] bits) with
  | none => rw [h0] at hcov; simp at hcov
  | some r0 =>
    have hfin : alookup b.node (canonReps bits) = some r0 := by
      unfold canonReps
      exact promoteClass_stable _ bits _ _ _ (promoteClass_stable _ bits _ _ _ h0)
    refine ⟨r0, hfin, ?_⟩
    rcases promoteClass_from _ bits _ b.node r0 h0 with hbase | hnew
    · simp [alookup] at hbase
    · unfold firstClass
      rw [if_pos hnew.2.1]

theorem canonReps_stage1 (bits : List WireBit) (b : WireBit) (hb : b ∈ bits)
    (hin : b.isInput = true) :
    ∃ r, alookup b.node (canonReps bits) = some r ∧ firstClass r ≤ 1 := by
  have hcov := promoteClass_covers (fun x => x.isInput) bits
    (promoteClass (fun x => x.isPublic) [] bits) b hb hin
  cases h1 : alookup b.node (promoteClass (fun x => x.isInput)
      (promoteClass (fun x => x.isPublic) [] bits) bits) with
  | none => rw [h1] at hcov; simp at hcov
  | some r1 =>
    have hfin : alookup b.node (canonReps bits) = some r1 := by
      unfold canonReps
      exact promoteClass_stable _ bits _ _ _ h1
    refine ⟨r1, hfin, ?_⟩
    rcases promoteClass_from _ bits _ b.node r1 h1 with h0 | hnew
    · rcases promoteClass_from _ bits _ b.node r1 h0 with hbase | hnew0
      · simp [alookup] at hbase
      · unfold firstClass
        rw [if_pos hnew0.2.1]
        omega
    · unfold firstClass
      split
      · omega
      · rw [if_pos hnew.2.1]

theorem canonReps_stage2 (bits : List WireBit) (b : WireBit) (hb : b ∈ bits)
    (hout : b.isOutput = true) :
    ∃ r, alookup b.node (canonReps bits) = some r ∧ firstClass r ≤ 2 := by
  have hcov := promoteClass_covers (fun x => x.isOutput) bits
    (promoteClass (fun x => x.isInput) (promoteClass (fun x => x.isPublic) [] bits) bits) b hb hout
  cases h2 : alookup b.node (canonReps bits) with
  | none =>
    unfold canonReps at h2
    rw [h2] at hcov
    simp at hcov
  | some r2 =>
    exact ⟨r2, rfl, (canonReps_from bits b.node r2 h2).2.2⟩

/-- Claim C4: wires are promoted in the order public-named, then declared
inputs, then declared outputs, and later promotions do not override earlier
representative choices, so for every electrical node touched by a classed
wire bit the final canonical representative belongs to the
highest-priority (earliest-processed) class present at that node.
(`SigMap::add`/`mfp::promote` are modelled from the spec, as `sigtools.h` is
outside this source tree.) -/
theorem sigmap_promotion_priority (bits : List WireBit) (b : WireBit)
    (hb : b ∈ bits) (hc : firstClass b ≤ 2) :
    ∃ r, alookup b.node (canonReps bits) = some r ∧ r ∈ bits ∧ r.node = b.node ∧
      ∀ b' ∈ bits, b'.node = b.node → firstClass r ≤ firstClass b' := by
  have hex : ∃ r, alookup b.node (canonReps bits) = some r := by
    by_cases hpub : b.isPublic = true
    · obtain ⟨r, hr, _⟩ := canonReps_stage0 bits b hb hpub
      exact ⟨r, hr⟩
    · by_cases hin : b.isInput = true
      · obtain ⟨r, hr, _⟩ := canonReps_stage1 bits b hb hin
        exact ⟨r, hr⟩
      · by_cases hout : b.isOutput = true
        · obtain ⟨r, hr, _⟩ := canonReps_stage2 bits b hb hout
          exact ⟨r, hr⟩
        · exfalso
          unfold firstClass at hc
          rw [if_neg hpub, if_neg hin, if_neg hout] at hc
          omega
  obtain ⟨r, hr⟩ := hex
  obtain ⟨hrmem, hrnode, hrcls⟩ := canonReps_from bits b.node r hr
  refine ⟨r, hr, hrmem, hrnode, ?_⟩
  intro b' hb' hn
  by_cases hpub : b'.isPublic = true
  · obtain ⟨r0, hr0, hfc0⟩ := canonReps_stage0 bits b' hb' hpub
    rw [hn] at hr0
    rw [hr] at hr0
    obtain rfl : r = r0 := by injection hr0
    rw [hfc0]
    omega
  · by_cases hin : b'.isInput = true
    · obtain ⟨r1, hr1, hfc1⟩ := canonReps_stage1 bits b' hb' hin
      rw [hn] at hr1
      rw [hr] at hr1
      obtain rfl : r = r1 := by injection hr1
      have : firstClass b' = 1 := by
        unfold firstClass
        rw [if_neg hpub, if_pos hin]
      omega
    · by_cases hout : b'.isOutput = true
      · have : firstClass b' = 2 := by
          unfold firstClass
          rw [if_neg hpub, if_neg hin, if_pos hout]
        omega
      · have : firstClass b' = 3 := by
          unfold firstClass
          rw [if_neg hpub, if_neg hin, if_neg hout]
        have := firstClass_le_three r
        omega

theorem sigmap_promotion_priority_witness :
    ((⟨false, true, false, 7⟩ : WireBit) ∈
       [(⟨false, true, false, 7⟩ : WireBit), ⟨true, false, false, 7⟩] ∧
     firstClass ⟨false, true, false, 7⟩ ≤ 2) ∧
    (∃ r, alookup (7 : Nat)
        (canonReps [(⟨false, true, false, 7⟩ : WireBit), ⟨true, false, false, 7⟩]) = some r ∧
      r ∈ [(⟨false, true, false, 7⟩ : WireBit), ⟨true, false, false, 7⟩] ∧ r.node = 7 ∧
      ∀ b' ∈ [(⟨false, true, false, 7⟩ : WireBit), ⟨true, false, false, 7⟩],
        b'.node = 7 → firstClass r ≤ firstClass b') :=
  ⟨⟨by decide, by decide⟩,
   sigmap_promotion_priority [⟨false, true, false, 7⟩, ⟨true, false, false, 7⟩]
     ⟨false, true, false, 7⟩ (by decide) (by decide)⟩

/-- Claim C5 counterexample: for the concrete writer `wC5` (one register, no
boxes) the extension sections after the `c` byte appear in tag order
`r`(114), `s`(115), `a`(97), `h`(104), `i`(105) — not in the claimed order
`h`, `r`, `s`, `a`, `i`. -/
theorem section_order_counterexample :
    extSections wC5 = some secC5 ∧
    tagWalk 5 secC5 = [114, 115, 97, 104, 105] ∧
    [(114 : Nat), 115, 97, 104, 105] ≠ [104, 114, 115, 97, 105] := by decide

/-- Claim C5 (amended): after the `c` byte the extension sections appear in
the order `r`, `s`, `a` (present exactly when at least one box or register
exists) followed by `h` and `i` (always present), each introduced by its
single ASCII tag byte and a 4-byte big-endian length. -/
theorem extension_sections_order (w : XWriter) (bs : List Nat)
    (h : extSections w = some bs)
    (hr : (rPayload w).length < 2 ^ 32) (hs : (sPayload w).length < 2 ^ 32)
    (ha : w.a_payload.length < 2 ^ 32) (hh : (hPayload w).length < 2 ^ 32)
    (hi : (iPayload w).length < 2 ^ 32) :
    tagWalk 5 bs = if w.box_list = [] ∧ w.ff_bits = [] then [104, 105]
                   else [114, 115, 97, 104, 105] := by
  unfold extSections at h
  split at h
  · rename_i hcond
    simp only [Option.some.injEq] at h
    subst h
    rw [if_pos hcond]
    have e1 : tagSection 104 (hPayload w) ++ tagSection 105 (iPayload w)
        = tagSection 104 (hPayload w) ++ (tagSection 105 (iPayload w) ++ []) := by
      simp
    rw [e1, tagWalk_section 4 104 _ _ hh, tagWalk_section 3 105 _ _ hi]
    rfl
  · rename_i hcond
    split at h
    · simp only [Option.some.injEq] at h
      subst h
      rw [if_neg hcond]
      have e1 : tagSection 114 (rPayload w) ++ tagSection 115 (sPayload w) ++
            tagSection 97 w.a_payload ++ tagSection 104 (hPayload w) ++
            tagSection 105 (iPayload w)
          = tagSection 114 (rPayload w) ++ (tagSection 115 (sPayload w) ++
            (tagSection 97 w.a_payload ++ (tagSection 104 (hPayload w) ++
            (tagSection 105 (iPayload w) ++ [])))) := by
        simp
      rw [e1, tagWalk_section 4 114 _ _ hr, tagWalk_section 3 115 _ _ hs,
          tagWalk_section 2 97 _ _ ha, tagWalk_section 1 104 _ _ hh,
          tagWalk_section 0 105 _ _ hi]
      rfl
    · exact absurd h (by simp)

theorem extension_sections_order_witness :
    (extSections wC5 = some secC5 ∧
     (rPayload wC5).length < 2 ^ 32 ∧ (sPayload wC5).length < 2 ^ 32 ∧
     wC5.a_payload.length < 2 ^ 32 ∧ (hPayload wC5).length < 2 ^ 32 ∧
     (iPayload wC5).length < 2 ^ 32) ∧
    tagWalk 5 secC5 = (if wC5.box_list = [] ∧ wC5.ff_bits = [] then [104, 105]
                       else [114, 115, 97, 104, 105]) :=
  ⟨⟨by decide, by decide, by decide, by decide, by decide, by decide⟩,
   extension_sections_order wC5 secC5 (by decide) (by decide) (by decide) (by decide)
     (by decide) (by decide)⟩

/-- Claim C6 counterexample: the 32-bit float 1.0f (bit pattern 0x3F800000)
is written by `write_buffer_float` as the little-endian bytes
`[0, 0, 128, 63]`, not the big-endian `[63, 128, 0, 0]`; and the register's
arrival-time float bytes end up in the `i` buffer, while the `r` payload
holds only the big-endian count and mergeability words. -/
theorem float_endianness_counterexample :
    write_buffer_float 1065353216 = [0, 0, 128, 63] ∧
    be32 1065353216 = [63, 128, 0, 0] ∧
    write_buffer_float 1065353216 ≠ be32 1065353216 ∧
    rPayload wC6 = [0, 0, 0, 1, 0, 0, 0, 5] ∧
    iPayload wC6 = [0, 0, 128, 63] := by decide

/-- Claim C6 (amended): all multi-byte integers of the binary format
(section lengths, `h`/`r`/`s` payload words) are written big-endian through
`to_big_endian`, but the embedded 32-bit floats are written raw in host
(little-endian) byte order — the reverse of big-endian; and the
per-register arrival-time floats are appended to the `i` buffer by the
register loop, while the `r` payload contains only the register count and
the mergeability words. -/
theorem serializer_endianness (w : XWriter) (n p : Nat) (hn : n < 2 ^ 32) (hp : p < 2 ^ 32) :
    write_buffer n = be32 n ∧
    write_buffer_float p = (be32 p).reverse ∧
    rPayload w = write_buffer w.ff_bits.length ++
      (w.ff_bits.map fun q => write_buffer q.2).flatten ∧
    iPayload w =
      (w.input_bits.map fun b => write_buffer_float (alookupD b w.arrival_times 0)).flatten ++
      (if w.box_list = [] ∧ w.ff_bits = [] then []
       else (w.ff_bits.map fun q => write_buffer_float (alookupD q.1 w.arrival_times 0)).flatten) := by
  refine ⟨write_buffer_eq_be32 n hn, write_buffer_float_rev p hp, ?_, ?_⟩
  · unfold rPayload
    rw [(ffRegLoop_spec w.arrival_times w.ff_bits).1]
  · unfold iPayload
    rw [(ffRegLoop_spec w.arrival_times w.ff_bits).2]

theorem serializer_endianness_witness :
    ((1 : Nat) < 2 ^ 32 ∧ (1065353216 : Nat) < 2 ^ 32) ∧
    (write_buffer 1 = be32 1 ∧
     write_buffer_float 1065353216 = (be32 1065353216).reverse ∧
     rPayload wC6 = write_buffer wC6.ff_bits.length ++
       (wC6.ff_bits.map fun q => write_buffer q.2).flatten ∧
     iPayload wC6 =
       (wC6.input_bits.map fun b => write_buffer_float (alookupD b wC6.arrival_times 0)).flatten ++
       (if wC6.box_list = [] ∧ wC6.ff_bits = [] then []
        else (wC6.ff_bits.map fun q => write_buffer_float (alookupD q.1 wC6.arrival_times 0)).flatten)) :=
  ⟨⟨by decide, by decide⟩, serializer_endianness wC6 1 1065353216 (by decide) (by decide)⟩

/-- Claim C7 counterexample: a two-cell combinational loop in a netlist with
no box cell: `abc9_box_seen` is false, so `toposort.sort()` is never invoked
and the ordering step completes without any fatal error — the pass does not
"always fail fatally" on gate-only feedback loops; and even with a box
present the failure is a bare assertion with the loop-reporting block
compiled out. -/
theorem cycle_without_box_counterexample :
    isCycle [(0, 1), (1, 0)] [0, 1] ∧
    orderCells false [0, 1] [(0, 1), (1, 0)] = some [] ∧
    orderCells false [0, 1] [(0, 1), (1, 0)] ≠ none ∧
    orderCells true [0, 1] [(0, 1), (1, 0)] = none := by decide

/-- Claim C7 (amended): when at least one abc9 box cell is present, the
orderer runs: on a cycle-free graph (witnessed by a measure increasing along
edges) the sort always completes with a full order over the registered cells
and never reports a cycle, while on a graph containing a combinational cycle
the sort comes back incomplete and `log_assert(no_loops)` aborts fatally —
but the looped cells are not reported (that block is `#if 0`-ed out); when
no box cell is present, the toposort is never invoked and a gate-only loop
is not detected at ordering time.  (`TopoSort` is modelled from the spec, as
`kernel/utils.h` is outside this source tree.) -/
theorem toposort_behavior (nodes nodes2 : List Nat) (edges edges2 : List (Nat × Nat))
    (μ : Nat → Nat) (c : List Nat)
    (hacyc : ∀ p ∈ edges, μ p.1 < μ p.2)
    (hcyc : isCycle edges2 c) (hsub : ∀ x ∈ c, x ∈ nodes2) :
    (∃ sorted, orderCells true nodes edges = some sorted ∧
       sorted.length = nodes.length ∧ ∀ x ∈ nodes, x ∈ sorted) ∧
    orderCells true nodes2 edges2 = none ∧
    orderCells false nodes2 edges2 = some [] := by
  refine ⟨?_, ?_, rfl⟩
  · have hperm := topoGo_perm edges μ hacyc nodes.length nodes (Nat.le_refl _)
    refine ⟨topoGo edges nodes.length nodes, ?_, hperm.length_eq,
            fun x hx => hperm.mem_iff.mpr hx⟩
    unfold orderCells toposort
    rw [if_pos rfl]
    simp [hperm.length_eq]
  · have hshort := topoGo_cycle_short edges2 c hcyc nodes2.length nodes2 hsub
    have hne : ¬((topoGo edges2 nodes2.length nodes2).length = nodes2.length) := by omega
    unfold orderCells toposort
    rw [if_pos rfl]
    simp [hne]

theorem toposort_behavior_witness :
    ((∀ p ∈ [((0 : Nat), (1 : Nat))], p.1 < p.2) ∧
     isCycle [(5, 6), (6, 5)] [5, 6] ∧ (∀ x ∈ [(5 : Nat), 6], x ∈ [(5 : Nat), 6])) ∧
    ((∃ sorted, orderCells true [0, 1] [(0, 1)] = some sorted ∧
       sorted.length = [(0 : Nat), 1].length ∧ ∀ x ∈ [(0 : Nat), 1], x ∈ sorted) ∧
     orderCells true [5, 6] [(5, 6), (6, 5)] = none ∧
     orderCells false [5, 6] [(5, 6), (6, 5)] = some []) :=
  ⟨⟨by decide, by decide, by decide⟩,
   toposort_behavior [0, 1] [5, 6] [(0, 1)] [(5, 6), (6, 5)] (fun n => n) [5, 6]
     (by decide) (by decide) (by decide)⟩

/-- Claim C8: a design with zero real primary outputs still produces a valid
encoding with exactly one dummy constant-0 output — `omode` is set, the
output pool becomes the single `S0` bit, the constant-false literal 0 is
appended to the output list (between the box-input group and the register
group) and counted in `aig_o` — and the companion map file emits exactly one
placeholder `output` symbol line for it. -/
theorem dummy_output_emitted (nl : Netlist) (tb : Tables) (fuel : Nat) (s : XState)
    (zinit : Bool) (init_map : List (SigBit × Bool)) (coLen : Nat) (wires : List (Nat × Nat))
    (houts : tb.output_bits = []) (h : buildAig nl tb fuel = some s) :
    s.omode = true ∧ s.output_bits = [SigBit.S0] ∧
    s.aig_o = tb.co_bits.length + 1 + tb.ff_bits.length ∧
    (∃ coPart ffPart, s.aig_outputs = coPart ++ 0 :: ffPart ∧
       coPart.length = tb.co_bits.length ∧ ffPart.length = tb.ff_bits.length) ∧
    writeMapOutputs s zinit init_map coLen wires = [MapLine.outDummy] := by
  obtain ⟨hl, hwf, hlen, ho, hemp, hne, hS0,
          coPart, outPart, ffPart, hdec, hcofa, houtfa, hfffa⟩ := buildAig_spec nl tb fuel s h
  obtain ⟨hom, hob⟩ := hemp houts
  refine ⟨hom, hob, ?_, ?_, writeMapOutputs_omode s zinit init_map coLen wires hom hob⟩
  · rw [ho, hob]
    rfl
  · rw [hob] at houtfa
    obtain ⟨a, u', hra, htail, hu⟩ := List.forall₂_cons_left_iff.mp houtfa
    rw [List.forall₂_nil_left_iff] at htail
    subst htail
    subst hu
    have ha0 : a = 0 := by
      rw [hS0] at hra
      injection hra with hv
      omega
    subst ha0
    refine ⟨coPart, ffPart, ?_, (List.Forall₂.length_eq hcofa).symm,
            (List.Forall₂.length_eq hfffa).symm⟩
    rw [hdec]
    simp

theorem dummy_output_emitted_witness :
    (tbC3.output_bits = [] ∧ buildAig nlE tbC3 9 = some sC3) ∧
    (sC3.omode = true ∧ sC3.output_bits = [SigBit.S0] ∧
     sC3.aig_o = tbC3.co_bits.length + 1 + tbC3.ff_bits.length ∧
     (∃ coPart ffPart, sC3.aig_outputs = coPart ++ 0 :: ffPart ∧
        coPart.length = tbC3.co_bits.length ∧ ffPart.length = tbC3.ff_bits.length) ∧
     writeMapOutputs sC3 false [] 0 [(0, 1)] = [MapLine.outDummy]) :=
  ⟨⟨by decide, by decide⟩,
   dummy_output_emitted nlE tbC3 9 sC3 false [] 0 [(0, 1)] (by decide) (by decide)⟩

/-- Claim C9: when the `not`/`and`/`alias` tables recorded by the classifier
are acyclic (witnessed by a depth measure strictly decreasing along every
dependency edge, which the orderer's cycle exclusion guarantees), the
recursive `bit2aig` terminates for every bit — with fuel above the bit's
depth it never runs out — and memoization ensures each distinct bit is
translated at most once: after a successful translation the bit is cached,
and every later call on it returns the same cached literal with the state
unchanged. -/
theorem bit2aig_terminates_and_memoizes (nl : Netlist) (μ : SigBit → Nat) (fuel : Nat)
    (st : XState) (bit : SigBit)
    (hnotd : ∀ p ∈ nl.not_map, μ p.2 < μ p.1)
    (handd : ∀ p ∈ nl.and_map, μ p.2.1 < μ p.1 ∧ μ p.2.2 < μ p.1)
    (hald : ∀ p ∈ nl.alias_map, μ p.2 < μ p.1)
    (hf : μ bit < fuel) :
    bit2aig nl fuel st bit ≠ Res.fuelOut ∧
    (∀ st' a, bit2aig nl fuel st bit = Res.ok st' a →
       alookup bit st'.aig_map = some a ∧
       ∀ g, bit2aig nl (g + 1) st' bit = Res.ok st' a) := by
  refine ⟨bit2aig_no_fuelOut nl μ hnotd handd hald fuel st bit hf, ?_⟩
  intro st' a h
  exact ⟨(bit2aig_ok nl fuel st bit st' a h).2.2.2.1, bit2aig_recall nl fuel st bit st' a h⟩

theorem bit2aig_terminates_and_memoizes_witness :
    ((∀ p ∈ nl9.not_map, mu9 p.2 < mu9 p.1) ∧
     (∀ p ∈ nl9.and_map, mu9 p.2.1 < mu9 p.1 ∧ mu9 p.2.2 < mu9 p.1) ∧
     (∀ p ∈ nl9.alias_map, mu9 p.2 < mu9 p.1) ∧ mu9 (SigBit.wire 1 0) < 2) ∧
    (bit2aig nl9 2 (initX []) (SigBit.wire 1 0) ≠ Res.fuelOut ∧
     (∀ st' a, bit2aig nl9 2 (initX []) (SigBit.wire 1 0) = Res.ok st' a →
        alookup (SigBit.wire 1 0) st'.aig_map = some a ∧
        ∀ g, bit2aig nl9 (g + 1) st' (SigBit.wire 1 0) = Res.ok st' a)) :=
  ⟨⟨by decide, by decide, by decide, by decide⟩,
   bit2aig_terminates_and_memoizes nl9 mu9 2 (initX []) (SigBit.wire 1 0)
     (by decide) (by decide) (by decide) (by decide)⟩

/-- Claim C10: the byte stream produced by `write_aiger` for a given writer
and ascii/binary mode is identical for `zinit_mode = true` and
`zinit_mode = false`; the flag only influences the companion map file, where
the default `init` field of an output line with no recorded init value
changes from 2 (uninitialized) to 0, while a recorded init value yields the
same field either way. -/
theorem zinit_mode_noninterference (w : XWriter) (m : Bool) (b b' : SigBit) (v : Bool)
    (hnoinit : alookup b w.init_map = none) :
    write_xaiger { w with zinit_mode := true } m = write_xaiger { w with zinit_mode := false } m ∧
    outInit true w.init_map b = 0 ∧ outInit false w.init_map b = 2 ∧
    (alookup b' w.init_map = some v →
       outInit true w.init_map b' = outInit false w.init_map b') := by
  refine ⟨rfl, ?_, ?_, ?_⟩
  · simp [outInit, hnoinit]
  · simp [outInit, hnoinit]
  · intro hv
    simp [outInit, hv]

theorem zinit_mode_noninterference_witness :
    alookup (SigBit.wire 9 9) wC5.init_map = none ∧
    (write_xaiger { wC5 with zinit_mode := true } false =
       write_xaiger { wC5 with zinit_mode := false } false ∧
     outInit true wC5.init_map (SigBit.wire 9 9) = 0 ∧
     outInit false wC5.init_map (SigBit.wire 9 9) = 2 ∧
     (alookup (SigBit.wire 9 9) wC5.init_map = some true →
        outInit true wC5.init_map (SigBit.wire 9 9) =
        outInit false wC5.init_map (SigBit.wire 9 9))) :=
  ⟨by decide,
   zinit_mode_noninterference wC5 false (SigBit.wire 9 9) (SigBit.wire 9 9) true (by decide)⟩
